import Mathlib

/-!
# Verification of the `fetch-satellite` raster pipeline

Shallow embedding of the raster decode/derive/encode pipeline implemented in
`supabase/functions/fetch-satellite/index.ts`:

* `decompressLZW`   — the TIFF-variant LZW decompressor (source lines 713-783);
* `extractFallback` — the heuristic byte-offset recovery scan (lines 831-861);
* `parseTiffInt16ToFloat32` — TIFF container parse + strip decode dispatch
  (lines 574-710), parameterised over the external Deflate library;
* `generateNdviMask` — NDVI computation and classification (lines 875-950);
* `createBMP`       — the minimal BMP container writer (lines 953-992).

Conventions: bytes are naturals (stores into `Uint8Array` wrap modulo 256,
out-of-range reads give `undefined`, which stores as 0); 16-bit samples are
integers; reflectance/index values are rationals (exact stand-ins for the
JS doubles, whose operations here — division guarded by a positive
denominator, comparison against decimal constants — are exact in ℚ);
NaN-producing reads (`undefined` arithmetic) are modelled with `Option ℚ`,
where `none` plays NaN and every comparison against `none` is false, as in JS.
-/

set_option maxHeartbeats 1000000
set_option maxRecDepth 10000

namespace AreaExplorer

/-! ## Byte-level helpers (DataView semantics) -/

/-- Little-endian byte serialisation of a 32-bit store
(`DataView.setUint32 off v true` wraps the value to 32 bits). -/
def le32 (v : ℕ) : List ℕ :=
  [v % 256, v / 256 % 256, v / 65536 % 256, v / 16777216 % 256]

/-- Little-endian byte serialisation of a 16-bit store (`setUint16`). -/
def le16 (v : ℕ) : List ℕ := [v % 256, v / 256 % 256]

/-- The 32-bit two's-complement pattern of an integer (`setInt32`). -/
def toUint32 (v : ℤ) : ℕ := (v % 4294967296).toNat

/-- Read an unsigned 32-bit little-endian value (`getUint32 off true`). -/
def readU32LE (bs : List ℕ) (off : ℕ) : ℕ :=
  bs.getD off 0 + 256 * bs.getD (off + 1) 0 + 65536 * bs.getD (off + 2) 0 +
    16777216 * bs.getD (off + 3) 0

/-- Read a signed 32-bit little-endian value (`getInt32 off true`). -/
def readI32LE (bs : List ℕ) (off : ℕ) : ℤ :=
  let u := readU32LE bs off
  if u < 2147483648 then (u : ℤ) else (u : ℤ) - 4294967296

theorem le32_length (v : ℕ) : (le32 v).length = 4 := rfl

theorem le16_length (v : ℕ) : (le16 v).length = 2 := rfl

/-! ## `createBMP` (source lines 953-992)

`rowSize = Math.ceil((width*4)/4)*4 = 4*width` (exact: `width*4` is already a
multiple of 4), hence `imageSize = 4*width*height` and no row padding is
written.  The 54 header bytes are laid out by `DataView` stores at disjoint
fixed offsets into a zero-initialised buffer; the list below concatenates the
fields in offset order (offsets 6-9 and 46-53 are never stored and stay 0). -/

def bmpHeader (width height : ℕ) : List ℕ :=
  [0x42, 0x4D] ++ le32 (54 + 4 * width * height) ++ [0, 0, 0, 0] ++
  le32 54 ++ le32 40 ++ le32 (toUint32 (width : ℤ)) ++
  le32 (toUint32 (-(height : ℤ))) ++ le16 1 ++ le16 32 ++ le32 0 ++
  le32 (4 * width * height) ++ le32 2835 ++ le32 2835 ++
  [0, 0, 0, 0, 0, 0, 0, 0]

/-- The pixel-data section: rows top to bottom, each pixel re-ordered from
RGBA to BGRA (`bmp[offset++] = rgba[srcIdx + 2]`, etc.). -/
def bmpPixelRows (rgba : List ℕ) (width height : ℕ) : List ℕ :=
  (List.range height).flatMap fun y =>
    (List.range width).flatMap fun x =>
      [rgba.getD ((y * width + x) * 4 + 2) 0 % 256,
       rgba.getD ((y * width + x) * 4 + 1) 0 % 256,
       rgba.getD ((y * width + x) * 4) 0 % 256,
       rgba.getD ((y * width + x) * 4 + 3) 0 % 256]

/-- `createBMP` (source lines 953-992). -/
def createBMP (rgba : List ℕ) (width height : ℕ) : List ℕ :=
  bmpHeader width height ++ bmpPixelRows rgba width height

theorem bmpHeader_length (w h : ℕ) : (bmpHeader w h).length = 54 := rfl

theorem map_const_range {α : Type} (g : ℕ → α) (n : ℕ) (a : α)
    (h : ∀ i, g i = a) : List.map g (List.range n) = List.replicate n a := by
  refine List.eq_replicate_iff.2 ⟨by simp, ?_⟩
  intro b hb
  obtain ⟨i, _, rfl⟩ := List.mem_map.1 hb
  exact h i

/-- Indexing into a `flatMap` over `List.range` whose chunks all have
length `k`. -/
theorem flatMap_range_chunk {α : Type} (f : ℕ → List α) (k n q r : ℕ) (d : α)
    (hf : ∀ i, (f i).length = k) (hq : q < n) (hr : r < k) :
    ((List.range n).flatMap f).getD (k * q + r) d = (f q).getD r d := by
  induction n with
  | zero => omega
  | succ m ih =>
      rw [List.range_succ, List.flatMap_append]
      have hlen : ((List.range m).flatMap f).length = k * m := by
        rw [List.length_flatMap]
        rw [map_const_range (List.length ∘ f) m k hf, List.sum_replicate,
          smul_eq_mul, mul_comm]
      rcases Nat.lt_or_ge q m with hqm | hqm
      · rw [List.getD_append _ _ _ _ (by
          rw [hlen]
          calc k * q + r < k * q + k := by omega
          _ = k * (q + 1) := by ring
          _ ≤ k * m := Nat.mul_le_mul_left k hqm)]
        exact ih hqm
      · have hq' : q = m := by omega
        subst hq'
        rw [List.getD_append_right _ _ _ _ (by rw [hlen]; exact Nat.le_add_right _ _),
          hlen]
        simp only [List.flatMap_cons, List.flatMap_nil, List.append_nil]
        congr 1
        omega

theorem bmpPixelRows_length (rgba : List ℕ) (w h : ℕ) :
    (bmpPixelRows rgba w h).length = 4 * w * h := by
  rw [bmpPixelRows, List.length_flatMap]
  rw [map_const_range _ _ (4 * w) ?_, List.sum_replicate, smul_eq_mul]
  · ring
  · intro i
    simp only [Function.comp_apply, List.length_flatMap]
    rw [map_const_range (List.length ∘ fun x =>
        [rgba.getD ((i * w + x) * 4 + 2) 0 % 256,
         rgba.getD ((i * w + x) * 4 + 1) 0 % 256,
         rgba.getD ((i * w + x) * 4) 0 % 256,
         rgba.getD ((i * w + x) * 4 + 3) 0 % 256]) w 4 (fun j => rfl),
      List.sum_replicate, smul_eq_mul, mul_comm]

theorem createBMP_length (rgba : List ℕ) (w h : ℕ) :
    (createBMP rgba w h).length = 54 + 4 * w * h := by
  rw [createBMP, List.length_append, bmpHeader_length, bmpPixelRows_length]

theorem getD_mod_self (l : List ℕ) (i : ℕ) (h : ∀ b ∈ l, b < 256) :
    l.getD i 0 % 256 = l.getD i 0 := by
  rcases Nat.lt_or_ge i l.length with hi | hi
  · rw [List.getD_eq_getElem _ _ hi]
    exact Nat.mod_eq_of_lt (h _ (List.getElem_mem hi))
  · rw [List.getD_eq_default _ _ hi]

theorem toUint32_lt (v : ℤ) : toUint32 v < 4294967296 := by
  have h1 : 0 ≤ v % 4294967296 := Int.emod_nonneg v (by norm_num)
  have h2 : v % 4294967296 < 4294967296 := Int.emod_lt_of_pos v (by norm_num)
  unfold toUint32
  omega

theorem createBMP_getD_header (rgba : List ℕ) (w h i : ℕ) (hi : i < 54) :
    (createBMP rgba w h).getD i 0 = (bmpHeader w h).getD i 0 :=
  List.getD_append _ _ _ _ (by rw [bmpHeader_length]; exact hi)

theorem bmpRow_length (rgba : List ℕ) (w y : ℕ) :
    ((List.range w).flatMap fun x =>
      [rgba.getD ((y * w + x) * 4 + 2) 0 % 256,
       rgba.getD ((y * w + x) * 4 + 1) 0 % 256,
       rgba.getD ((y * w + x) * 4) 0 % 256,
       rgba.getD ((y * w + x) * 4 + 3) 0 % 256]).length = 4 * w := by
  rw [List.length_flatMap]
  rw [map_const_range (List.length ∘ fun x =>
      [rgba.getD ((y * w + x) * 4 + 2) 0 % 256,
       rgba.getD ((y * w + x) * 4 + 1) 0 % 256,
       rgba.getD ((y * w + x) * 4) 0 % 256,
       rgba.getD ((y * w + x) * 4 + 3) 0 % 256]) w 4 (fun j => rfl),
    List.sum_replicate, smul_eq_mul, mul_comm]

theorem bmpPixelRows_getD (rgba : List ℕ) (w h y x j : ℕ)
    (hy : y < h) (hx : x < w) (hj : j < 4) :
    (bmpPixelRows rgba w h).getD ((y * w + x) * 4 + j) 0 =
      [rgba.getD ((y * w + x) * 4 + 2) 0 % 256,
       rgba.getD ((y * w + x) * 4 + 1) 0 % 256,
       rgba.getD ((y * w + x) * 4) 0 % 256,
       rgba.getD ((y * w + x) * 4 + 3) 0 % 256].getD j 0 := by
  have h1 : (y * w + x) * 4 + j = (4 * w) * y + (4 * x + j) := by ring_nf
  rw [bmpPixelRows, h1,
    flatMap_range_chunk _ (4 * w) h y (4 * x + j) 0
      (fun i => bmpRow_length rgba w i) hy (by omega)]
  rw [flatMap_range_chunk (fun x =>
      [rgba.getD ((y * w + x) * 4 + 2) 0 % 256,
       rgba.getD ((y * w + x) * 4 + 1) 0 % 256,
       rgba.getD ((y * w + x) * 4) 0 % 256,
       rgba.getD ((y * w + x) * 4 + 3) 0 % 256]) 4 w x j 0
      (fun i => rfl) hx hj]

/-- **C4.** For every width `w`, height `h`, and byte-valued RGBA input of
length `4*w*h` (file size within 32 bits, height within the signed 32-bit
range), the BMP encoder's output has total length `54 + 4*w*h`; bytes 0-1 are
the ASCII bytes "BM" (66, 77); the 32-bit little-endian file-size field at
offset 2 equals `54 + 4*w*h`; the pixel-data-offset field at offset 10 is 54;
the signed height field at offset 22 is `-h` (top-down rows); and the output
pixel at byte `54 + (y*w + x)*4` is the input pixel with red and blue bytes
swapped (B, G, R, A order), with no row padding. -/
theorem c4_createBMP_spec (rgba : List ℕ) (w h : ℕ)
    (hbytes : ∀ b ∈ rgba, b < 256)
    (hlen : rgba.length = 4 * w * h)
    (hfit : 54 + 4 * w * h < 4294967296)
    (hh : h ≤ 2147483648) :
    (createBMP rgba w h).length = 54 + 4 * w * h ∧
    (createBMP rgba w h).getD 0 0 = 66 ∧
    (createBMP rgba w h).getD 1 0 = 77 ∧
    readU32LE (createBMP rgba w h) 2 = 54 + 4 * w * h ∧
    readU32LE (createBMP rgba w h) 10 = 54 ∧
    readI32LE (createBMP rgba w h) 22 = -(h : ℤ) ∧
    ∀ y x, y < h → x < w →
      (createBMP rgba w h).getD (54 + (y * w + x) * 4) 0 =
          rgba.getD ((y * w + x) * 4 + 2) 0 ∧
      (createBMP rgba w h).getD (54 + (y * w + x) * 4 + 1) 0 =
          rgba.getD ((y * w + x) * 4 + 1) 0 ∧
      (createBMP rgba w h).getD (54 + (y * w + x) * 4 + 2) 0 =
          rgba.getD ((y * w + x) * 4) 0 ∧
      (createBMP rgba w h).getD (54 + (y * w + x) * 4 + 3) 0 =
          rgba.getD ((y * w + x) * 4 + 3) 0 := by
  have hdr := createBMP_getD_header rgba w h
  refine ⟨createBMP_length rgba w h, ?_, ?_, ?_, ?_, ?_, ?_⟩
  · rw [hdr 0 (by norm_num)]; rfl
  · rw [hdr 1 (by norm_num)]; rfl
  · have e2 : (bmpHeader w h).getD 2 0 = (54 + 4 * w * h) % 256 := by
      simp [bmpHeader, le32, le16, List.getD_cons_succ, List.getD_cons_zero]
    have e3 : (bmpHeader w h).getD 3 0 = (54 + 4 * w * h) / 256 % 256 := by
      simp [bmpHeader, le32, le16, List.getD_cons_succ, List.getD_cons_zero]
    have e4 : (bmpHeader w h).getD 4 0 = (54 + 4 * w * h) / 65536 % 256 := by
      simp [bmpHeader, le32, le16, List.getD_cons_succ, List.getD_cons_zero]
    have e5 : (bmpHeader w h).getD 5 0 =
        (54 + 4 * w * h) / 16777216 % 256 := by simp [bmpHeader, le32, le16, List.getD_cons_succ, List.getD_cons_zero]
    rw [readU32LE, show (2 : ℕ) + 1 = 3 from rfl, show (2 : ℕ) + 2 = 4 from rfl,
      show (2 : ℕ) + 3 = 5 from rfl, hdr 2 (by norm_num), hdr 3 (by norm_num),
      hdr 4 (by norm_num), hdr 5 (by norm_num), e2, e3, e4, e5]
    omega
  · have e10 : (bmpHeader w h).getD 10 0 = 54 % 256 := by
      simp [bmpHeader, le32, le16, List.getD_cons_succ, List.getD_cons_zero]
    have e11 : (bmpHeader w h).getD 11 0 = 54 / 256 % 256 := by
      simp [bmpHeader, le32, le16, List.getD_cons_succ, List.getD_cons_zero]
    have e12 : (bmpHeader w h).getD 12 0 = 54 / 65536 % 256 := by
      simp [bmpHeader, le32, le16, List.getD_cons_succ, List.getD_cons_zero]
    have e13 : (bmpHeader w h).getD 13 0 = 54 / 16777216 % 256 := by
      simp [bmpHeader, le32, le16, List.getD_cons_succ, List.getD_cons_zero]
    rw [readU32LE, show (10 : ℕ) + 1 = 11 from rfl,
      show (10 : ℕ) + 2 = 12 from rfl, show (10 : ℕ) + 3 = 13 from rfl,
      hdr 10 (by norm_num), hdr 11 (by norm_num), hdr 12 (by norm_num),
      hdr 13 (by norm_num), e10, e11, e12, e13]
  · have e22 : (bmpHeader w h).getD 22 0 = toUint32 (-(h : ℤ)) % 256 := by
      simp [bmpHeader, le32, le16, List.getD_cons_succ, List.getD_cons_zero]
    have e23 : (bmpHeader w h).getD 23 0 =
        toUint32 (-(h : ℤ)) / 256 % 256 := by
      simp [bmpHeader, le32, le16, List.getD_cons_succ, List.getD_cons_zero]
    have e24 : (bmpHeader w h).getD 24 0 =
        toUint32 (-(h : ℤ)) / 65536 % 256 := by
      simp [bmpHeader, le32, le16, List.getD_cons_succ, List.getD_cons_zero]
    have e25 : (bmpHeader w h).getD 25 0 =
        toUint32 (-(h : ℤ)) / 16777216 % 256 := by simp [bmpHeader, le32, le16, List.getD_cons_succ, List.getD_cons_zero]
    have hTlt := toUint32_lt (-(h : ℤ))
    have hTval : (toUint32 (-(h : ℤ)) : ℤ) = (-(h : ℤ)) % 4294967296 := by
      unfold toUint32
      exact Int.toNat_of_nonneg (Int.emod_nonneg _ (by norm_num))
    have hu : readU32LE (createBMP rgba w h) 22 = toUint32 (-(h : ℤ)) := by
      rw [readU32LE, show (22 : ℕ) + 1 = 23 from rfl,
        show (22 : ℕ) + 2 = 24 from rfl, show (22 : ℕ) + 3 = 25 from rfl,
        hdr 22 (by norm_num), hdr 23 (by norm_num), hdr 24 (by norm_num),
        hdr 25 (by norm_num), e22, e23, e24, e25]
      omega
    rw [readI32LE, hu]
    split <;> omega
  · intro y x hy hx
    have hidx : ∀ j, (createBMP rgba w h).getD (54 + ((y * w + x) * 4 + j)) 0 =
        (bmpPixelRows rgba w h).getD ((y * w + x) * 4 + j) 0 := by
      intro j
      rw [createBMP,
        List.getD_append_right _ _ _ _ (by rw [bmpHeader_length]; omega),
        bmpHeader_length]
      congr 1
      omega
    refine ⟨?_, ?_, ?_, ?_⟩
    · have hj := hidx 0
      rw [Nat.add_zero] at hj
      have hb := bmpPixelRows_getD rgba w h y x 0 hy hx (by norm_num)
      rw [Nat.add_zero] at hb
      rw [show 54 + (y * w + x) * 4 = 54 + ((y * w + x) * 4) from by omega, hj,
        hb]
      exact getD_mod_self rgba _ hbytes
    · rw [show 54 + (y * w + x) * 4 + 1 = 54 + ((y * w + x) * 4 + 1) from by omega,
        hidx 1, bmpPixelRows_getD rgba w h y x 1 hy hx (by norm_num)]
      exact getD_mod_self rgba _ hbytes
    · rw [show 54 + (y * w + x) * 4 + 2 = 54 + ((y * w + x) * 4 + 2) from by omega,
        hidx 2, bmpPixelRows_getD rgba w h y x 2 hy hx (by norm_num)]
      exact getD_mod_self rgba _ hbytes
    · rw [show 54 + (y * w + x) * 4 + 3 = 54 + ((y * w + x) * 4 + 3) from by omega,
        hidx 3, bmpPixelRows_getD rgba w h y x 3 hy hx (by norm_num)]
      exact getD_mod_self rgba _ hbytes

/-- Witness for C4: the 2×2 all-white RGBA buffer of the spec's own test. -/
theorem c4_createBMP_spec_witness :
    (createBMP (List.replicate 16 255) 2 2).length = 54 + 4 * 2 * 2 ∧
    readU32LE (createBMP (List.replicate 16 255) 2 2) 2 = 54 + 4 * 2 * 2 ∧
    readI32LE (createBMP (List.replicate 16 255) 2 2) 22 = -(2 : ℤ) := by
  have hmain := c4_createBMP_spec (List.replicate 16 255) 2 2
    (by decide) (by decide) (by norm_num) (by norm_num)
  exact ⟨hmain.1, hmain.2.2.2.1, hmain.2.2.2.2.2.1⟩

/-! ## `generateNdviMask` (source lines 875-950)

Band rasters are `Float32Array`s; a read past the end of a JS typed array
yields `undefined`, and any arithmetic on it yields `NaN`, for which every
`>` / `<` comparison is false.  Reads are therefore modelled as `Option ℚ`
(`none` = `undefined`/`NaN`). -/

/-- `arr[i]` on a typed array: `none` models `undefined`. -/
def jsRead (data : List ℚ) (i : ℕ) : Option ℚ :=
  if h : i < data.length then some (data.get ⟨i, h⟩) else none

/-- The per-pixel index of `generateNdviMask` (source lines 885-893):
`(nir - red) / (nir + red)` when `nir + red > 0`, else 0.  When either
operand is `none` (an out-of-range read), `nir + red` is `NaN`, the `> 0`
comparison is false, and the `else` branch stores 0. -/
def ndviPixel (red nir : Option ℚ) : ℚ :=
  match red, nir with
  | some r, some n => if n + r > 0 then (n - r) / (n + r) else 0
  | _, _ => 0

/-- `ndvi[i]` as computed by the source loop. -/
def ndviAt (b04 b08 : List ℚ) (i : ℕ) : ℚ :=
  ndviPixel (jsRead b04 i) (jsRead b08 i)

/-- The RGBA classification of one index value (source lines 904-939):
thresholds scanned from highest to lowest with strict `>`; the final
`else` bucket uses a more opaque alpha for values below -0.1. -/
def classifyPixel (val : ℚ) : List ℕ :=
  if val > 6/10 then [0, 128, 0, 200]
  else if val > 4/10 then [34, 139, 34, 180]
  else if val > 2/10 then [144, 238, 144, 150]
  else if val > 0 then [210, 180, 140, 120]
  else [65, 105, 225, if val < -1/10 then 150 else 50]

/-- The index raster built by the first loop of `generateNdviMask`. -/
def ndviArray (b04 b08 : List ℚ) (width height : ℕ) : List ℚ :=
  (List.range (width * height)).map fun i => ndviAt b04 b08 i

/-- Result of `generateNdviMask`: the RGBA classification buffer, the BMP
serialisation backing `maskDataUrl`, and `forestPercentage`. -/
structure NdviMask where
  rgba : List ℕ
  bmp : List ℕ
  forestPercentage : ℚ
deriving DecidableEq

/-- `generateNdviMask` (source lines 875-950).  No comparison of the two
band lengths is made anywhere. -/
def generateNdviMask (b04 b08 : List ℚ) (width height : ℕ) : NdviMask :=
  let ndvi := ndviArray b04 b08 width height
  let forestPixels := (ndvi.filter fun v => v > 3/10).length
  let rgba := ndvi.flatMap classifyPixel
  { rgba := rgba
    bmp := createBMP rgba width height
    forestPercentage := (forestPixels : ℚ) / (width * height : ℕ) * 100 }

theorem flatMap_length_const {α β : Type} (l : List α) (g : α → List β) (k : ℕ)
    (hg : ∀ a, (g a).length = k) : (l.flatMap g).length = k * l.length := by
  induction l with
  | nil => simp
  | cons a t ih =>
      rw [List.flatMap_cons, List.length_append, ih, hg, List.length_cons]
      ring

theorem classifyPixel_length (v : ℚ) : (classifyPixel v).length = 4 := by
  unfold classifyPixel
  split_ifs <;> rfl

theorem ndviPixel_none_left (nir : Option ℚ) : ndviPixel none nir = 0 := by
  cases nir <;> rfl

theorem ndviPixel_none_right (red : Option ℚ) : ndviPixel red none = 0 := by
  cases red <;> rfl

/-- **C2.** For every pixel whose band reads are in range — NIR sample `a`,
red sample `b` — the computed index is exactly 0 whenever `a + b ≤ 0`, and
equals `(a - b) / (a + b)` (with a provably nonzero denominator, so no
NaN/infinity arises) whenever `a + b > 0`; the two cases are exhaustive, so
the index raster is total over all real-valued inputs. -/
theorem c2_index_totality (a b : ℚ) :
    (a + b ≤ 0 → ndviPixel (some b) (some a) = 0) ∧
    (a + b > 0 → ndviPixel (some b) (some a) = (a - b) / (a + b) ∧
      a + b ≠ 0) := by
  constructor
  · intro hle
    simp only [ndviPixel, if_neg (not_lt.2 hle)]
  · intro hgt
    exact ⟨by simp only [ndviPixel, if_pos hgt], ne_of_gt hgt⟩

/-- Witness for C2 at `(a, b) = (0, 0)` and `(1, 0)`. -/
theorem c2_index_totality_witness :
    ((0 : ℚ) + 0 ≤ 0 ∧ ndviPixel (some 0) (some 0) = 0) ∧
    ((1 : ℚ) + 0 > 0 ∧ ndviPixel (some 0) (some 1) = (1 - 0) / (1 + 0)) :=
  ⟨⟨by norm_num, (c2_index_totality 0 0).1 (by norm_num)⟩,
   ⟨by norm_num, ((c2_index_totality 1 0).2 (by norm_num)).1⟩⟩

/-- **C9 counterexample.** An index value exactly equal to the 0.6
dense-vegetation threshold (red 0.1, NIR 0.4 gives index 0.6 exactly) is
assigned to the LOWER (moderate-vegetation) bucket `[34,139,34,180]`, not to
the higher bucket `[0,128,0,200]` the claim requires. -/
theorem c9_counterexample :
    ndviPixel (some (1/10)) (some (2/5)) = 6/10 ∧
    classifyPixel (6/10) = [34, 139, 34, 180] ∧
    classifyPixel (6/10) ≠ [0, 128, 0, 200] := by
  refine ⟨by norm_num [ndviPixel], by norm_num [classifyPixel], ?_⟩
  norm_num [classifyPixel]

/-- **C9 (amended).** Classification buckets every index value into exactly
one of the five ordered classes by scanning thresholds from highest to lowest
with strict `value > threshold` comparisons, so an index value exactly equal
to a class threshold is assigned to the LOWER bucket; each class maps to its
fixed RGBA colour, and within the water/non-vegetation bucket the alpha is
raised to 150 exactly for values below -0.1 (50 otherwise). -/
theorem c9_classification (v : ℚ) :
    (6/10 < v → classifyPixel v = [0, 128, 0, 200]) ∧
    (4/10 < v → v ≤ 6/10 → classifyPixel v = [34, 139, 34, 180]) ∧
    (2/10 < v → v ≤ 4/10 → classifyPixel v = [144, 238, 144, 150]) ∧
    (0 < v → v ≤ 2/10 → classifyPixel v = [210, 180, 140, 120]) ∧
    (v ≤ 0 → v < -1/10 → classifyPixel v = [65, 105, 225, 150]) ∧
    (v ≤ 0 → -1/10 ≤ v → classifyPixel v = [65, 105, 225, 50]) := by
  refine ⟨?_, ?_, ?_, ?_, ?_, ?_⟩ <;>
    (intros; simp only [classifyPixel]; split_ifs <;>
      first
      | rfl
      | (exfalso; linarith))

/-- Witness for C9: one value in each bucket, through the theorem. -/
theorem c9_classification_witness :
    classifyPixel 1 = [0, 128, 0, 200] ∧
    classifyPixel (1/2) = [34, 139, 34, 180] ∧
    classifyPixel (3/10) = [144, 238, 144, 150] ∧
    classifyPixel (1/10) = [210, 180, 140, 120] ∧
    classifyPixel (-1/2) = [65, 105, 225, 150] ∧
    classifyPixel 0 = [65, 105, 225, 50] :=
  ⟨(c9_classification 1).1 (by norm_num),
   (c9_classification (1/2)).2.1 (by norm_num) (by norm_num),
   (c9_classification (3/10)).2.2.1 (by norm_num) (by norm_num),
   (c9_classification (1/10)).2.2.2.1 (by norm_num) (by norm_num),
   (c9_classification (-1/2)).2.2.2.2.1 (by norm_num) (by norm_num),
   (c9_classification 0).2.2.2.2.2 (by norm_num) (by norm_num)⟩

/-- **C1 counterexample.** `generateNdviMask` applied to two bands of unequal
size (a four-sample 2×2 band and a single-sample band) raises no contract
error: it returns a complete 16-byte RGBA mask and a summary statistic.
Mismatched bands are processed, not rejected. -/
theorem c1_counterexample :
    (generateNdviMask (List.replicate 4 ((1:ℚ)/2)) [(1:ℚ)/2] 2 2).rgba =
      [65, 105, 225, 50, 65, 105, 225, 50,
       65, 105, 225, 50, 65, 105, 225, 50] ∧
    (generateNdviMask (List.replicate 4 ((1:ℚ)/2)) [(1:ℚ)/2] 2 2).forestPercentage
      = 0 := by
  have harr : ndviArray (List.replicate 4 ((1:ℚ)/2)) [(1:ℚ)/2] 2 2 =
      [0, 0, 0, 0] := by
    have hr : List.range (2 * 2) = [0, 1, 2, 3] := rfl
    unfold ndviArray
    rw [hr]
    simp only [List.map_cons, List.map_nil]
    norm_num [ndviAt, jsRead, ndviPixel, List.length_replicate,
      List.getElem_replicate]
  constructor
  · show ((ndviArray (List.replicate 4 ((1:ℚ)/2)) [(1:ℚ)/2] 2 2).flatMap
        classifyPixel) = _
    rw [harr]
    norm_num [classifyPixel, List.flatMap_cons, List.flatMap_nil]
  · show (((ndviArray (List.replicate 4 ((1:ℚ)/2)) [(1:ℚ)/2] 2 2).filter
        (fun v => v > 3/10)).length : ℚ) / ((2 * 2 : ℕ) : ℚ) * 100 = 0
    rw [harr]
    norm_num [List.filter]

/-- **C1 (amended).** `generateNdviMask` performs no shape check: for every
pair of band rasters — equal-sized or not — it produces a full `4*(w*h)`-byte
RGBA mask, a complete BMP, and a summary statistic; at every pixel position
past the end of either band the out-of-range read makes the `> 0` guard fail
and the index value is 0 (so the pixel lands in the non-vegetation bucket)
rather than an error being raised. -/
theorem c1_no_shape_check (b04 b08 : List ℚ) (w h : ℕ) :
    (generateNdviMask b04 b08 w h).rgba.length = 4 * (w * h) ∧
    (generateNdviMask b04 b08 w h).bmp.length = 54 + 4 * w * h ∧
    ∀ i, b04.length ≤ i ∨ b08.length ≤ i → ndviAt b04 b08 i = 0 := by
  refine ⟨?_, ?_, ?_⟩
  · show ((ndviArray b04 b08 w h).flatMap classifyPixel).length = 4 * (w * h)
    rw [flatMap_length_const _ _ 4 classifyPixel_length, ndviArray,
      List.length_map, List.length_range]
  · show (createBMP ((ndviArray b04 b08 w h).flatMap classifyPixel) w h).length
        = 54 + 4 * w * h
    exact createBMP_length _ w h
  · intro i hi
    unfold ndviAt jsRead
    rcases hi with hi | hi
    · rw [dif_neg (show ¬ i < b04.length by omega)]
      exact ndviPixel_none_left _
    · rw [dif_neg (show ¬ i < b08.length by omega)]
      exact ndviPixel_none_right _

/-- Witness for C1 (amended) at the counterexample's mismatched input. -/
theorem c1_no_shape_check_witness :
    (List.replicate 4 ((1:ℚ)/2)).length ≤ 17 ∧
    ndviAt (List.replicate 4 ((1:ℚ)/2)) [(1:ℚ)/2] 17 = 0 ∧
    (generateNdviMask (List.replicate 4 ((1:ℚ)/2)) [(1:ℚ)/2] 2 2).rgba.length
      = 4 * (2 * 2) :=
  ⟨by norm_num,
   (c1_no_shape_check (List.replicate 4 ((1:ℚ)/2)) [(1:ℚ)/2] 2 2).2.2 17
     (Or.inl (by norm_num)),
   (c1_no_shape_check (List.replicate 4 ((1:ℚ)/2)) [(1:ℚ)/2] 2 2).1⟩

/-! ## `decompressLZW` (source lines 713-783)

The JS bit buffer is a 32-bit signed integer; we model its 32-bit pattern as
a natural below `2^32`.  `(bitBuffer << 8) | byte` becomes
`(bitBuffer * 256 + byte) % 2^32` (the byte comes from a `Uint8Array`, so it
is below 256 and `|` coincides with `+`), and
`(bitBuffer >> bitsInBuffer) & ((1 << codeSize) - 1)` becomes
`bitBuffer / 2^bitsInBuffer % 2^codeSize`: the decoder holds fewer than 20
live bits at any time, so the arithmetic shift never reaches the sign bits
and agrees with the pattern shift. -/

/-- JS array index assignment `d[n] = e`: in-range assignment sets, past-end
assignment pads with holes (`[]`, never read back) and appends. -/
def dictSet (d : List (List ℕ)) (n : ℕ) (e : List ℕ) : List (List ℕ) :=
  if n < d.length then d.set n e
  else d ++ List.replicate (n - d.length) [] ++ [e]

/-- The 256 single-byte dictionary entries (source lines 717-720). -/
def initDict : List (List ℕ) := (List.range 256).map fun i => [i]

/-- The dictionary right after a clear code: `dictionary.length = 258`
leaves holes at 256/257 (those positions are never assigned) and the
re-seeding loop rewrites 0-255 with the single-byte entries. -/
def resetDict : List (List ℕ) := initDict ++ [[], []]

/-- The `while (bitsInBuffer < codeSize && bytePos < endPos)` refill loop of
`readCode` (source lines 733-736).  Returns the new
`(bitBuffer, bitsInBuffer, bytePos)`. -/
def fillBits (input : List ℕ) (endPos codeSize bitBuffer bitsInBuffer
    bytePos : ℕ) : ℕ × ℕ × ℕ :=
  if bitsInBuffer < codeSize ∧ bytePos < endPos then
    fillBits input endPos codeSize
      ((bitBuffer * 256 + input.getD bytePos 0 % 256) % 4294967296)
      (bitsInBuffer + 8) (bytePos + 1)
  else (bitBuffer, bitsInBuffer, bytePos)
termination_by endPos - bytePos

/-- The dictionary-growth step run after each emitted code
(source lines 772-777): when a previous code exists and the dictionary is
not full, append `dictionary[oldCode] ++ [entry[0]]`, bump `nextCode`, and
widen the code size when `nextCode` reaches `1 << codeSize` (capped at 12).
Returns `(dictionary, nextCode, codeSize)`. -/
def lzwAdd (dict : List (List ℕ)) (nextCode codeSize : ℕ)
    (oldCode : Option ℕ) (entry : List ℕ) : List (List ℕ) × ℕ × ℕ :=
  match oldCode with
  | some oc =>
      if nextCode < 4096 then
        (dictSet dict nextCode (dict.getD oc [] ++ [entry.headD 0]),
         nextCode + 1,
         if 2 ^ codeSize ≤ nextCode + 1 ∧ codeSize < 12 then codeSize + 1
         else codeSize)
      else (dict, nextCode, codeSize)
  | none => (dict, nextCode, codeSize)

theorem fillBits_measure (input : List ℕ) (endPos codeSize : ℕ) :
    ∀ bitBuffer bitsInBuffer bytePos,
      8 * (endPos -
          (fillBits input endPos codeSize bitBuffer bitsInBuffer bytePos).2.2) +
        (fillBits input endPos codeSize bitBuffer bitsInBuffer bytePos).2.1 =
      8 * (endPos - bytePos) + bitsInBuffer := by
  intro bitBuffer bitsInBuffer bytePos
  induction bitBuffer, bitsInBuffer, bytePos using
    fillBits.induct input endPos codeSize with
  | case1 bb bib bp hcond ih =>
      rw [fillBits, if_pos hcond, ih]
      omega
  | case2 bb bib bp hcond =>
      rw [fillBits, if_neg hcond]

theorem lzwAdd_codeSize_pos (dict : List (List ℕ)) (nextCode codeSize : ℕ)
    (oldCode : Option ℕ) (entry : List ℕ) (h : 0 < codeSize) :
    0 < (lzwAdd dict nextCode codeSize oldCode entry).2.2 := by
  unfold lzwAdd
  rcases oldCode with _ | oc
  · exact h
  · simp only
    split_ifs <;> simp <;> omega

/-- The main decode loop of `decompressLZW` (source lines 745-780), with the
in-flight `readCode` state (`bitBuffer`, `bitsInBuffer`, `bytePos`) and the
dictionary state (`codeSize`, `nextCode`, `dict`, `oldCode`) passed
explicitly.  `hcs` records that the code size is positive (it is always in
`[9, 12]`), which bounds the loop: every iteration consumes `codeSize` bits
or stops. -/
def lzwLoop (input : List ℕ) (endPos bitBuffer bitsInBuffer bytePos codeSize
    nextCode : ℕ) (dict : List (List ℕ)) (oldCode : Option ℕ)
    (output : List ℕ) (hcs : 0 < codeSize) : List ℕ :=
  if hg : bytePos < endPos ∨ codeSize ≤ bitsInBuffer then
    match hf : fillBits input endPos codeSize bitBuffer bitsInBuffer bytePos
      with
    | (bb, bib, bp) =>
      if hlt : bib < codeSize then output
      else
        let code := bb / 2 ^ (bib - codeSize) % 2 ^ codeSize
        if code = 257 then output
        else if code = 256 then
          lzwLoop input endPos bb (bib - codeSize) bp 9 258 resetDict none
            output (by norm_num)
        else
          let entry? : Option (List ℕ) :=
            if code < dict.length then some (dict.getD code [])
            else if code = nextCode ∧ oldCode ≠ none then
              some (dict.getD (oldCode.getD 0) [] ++
                [(dict.getD (oldCode.getD 0) []).headD 0])
            else none
          match entry? with
          | none => output
          | some entry =>
            lzwLoop input endPos bb (bib - codeSize) bp
              (lzwAdd dict nextCode codeSize oldCode entry).2.2
              (lzwAdd dict nextCode codeSize oldCode entry).2.1
              (lzwAdd dict nextCode codeSize oldCode entry).1
              (some code) (output ++ entry)
              (lzwAdd_codeSize_pos dict nextCode codeSize oldCode entry hcs)
  else output
termination_by 8 * (endPos - bytePos) + bitsInBuffer
decreasing_by
  all_goals
    (have hm := fillBits_measure input endPos codeSize bitBuffer bitsInBuffer
      bytePos
     rw [hf] at hm
     simp only at hm
     omega)

/-- `decompressLZW` (source lines 713-783). -/
def decompressLZW (input : List ℕ) (offset length : ℕ) : List ℕ :=
  lzwLoop input (offset + length) 0 0 offset 9 258 initDict none []
    (by norm_num)

theorem dictSet_length (d : List (List ℕ)) (n : ℕ) (e : List ℕ) :
    (dictSet d n e).length = max d.length (n + 1) := by
  unfold dictSet
  split_ifs with h
  · rw [List.length_set]
    omega
  · simp only [List.length_append, List.length_replicate, List.length_cons,
      List.length_nil]
    omega

theorem initDict_length : initDict.length = 256 := by
  simp [initDict]

theorem resetDict_length : resetDict.length = 258 := by
  simp [resetDict, initDict]

/-- **C10.** The LZW decoder is total: for every input byte buffer, offset
and length — including garbled code streams — `decompressLZW` terminates and
returns an output byte list (its Lean definition carries a kernel-checked
termination proof, with no partiality); and the decoder's resources stay
bounded: the dictionary-growth step `lzwAdd` (the only place the code size
or the dictionary change outside the constant clear-code reset) keeps the
code size in `[9, 12]` and the dictionary at most 4096 entries, invariants
that hold of the initial state (`codeSize = 9`, `initDict` with 256 entries)
and of the post-clear state (`resetDict` with 258 entries). -/
theorem c10_lzw_total_bounded :
    (∀ (input : List ℕ) (offset length : ℕ),
      ∃ out : List ℕ, decompressLZW input offset length = out) ∧
    (∀ (dict : List (List ℕ)) (nextCode codeSize : ℕ) (oldCode : Option ℕ)
        (entry : List ℕ),
      9 ≤ codeSize → codeSize ≤ 12 → nextCode ≤ 4096 →
      dict.length ≤ nextCode →
        9 ≤ (lzwAdd dict nextCode codeSize oldCode entry).2.2 ∧
        (lzwAdd dict nextCode codeSize oldCode entry).2.2 ≤ 12 ∧
        (lzwAdd dict nextCode codeSize oldCode entry).2.1 ≤ 4096 ∧
        (lzwAdd dict nextCode codeSize oldCode entry).1.length ≤
          (lzwAdd dict nextCode codeSize oldCode entry).2.1) ∧
    initDict.length ≤ 258 ∧ resetDict.length ≤ 258 := by
  refine ⟨fun input offset length => ⟨_, rfl⟩, ?_,
    by rw [initDict_length]; norm_num, by rw [resetDict_length]⟩
  intro dict nextCode codeSize oldCode entry h9 h12 h4096 hlen
  rcases oldCode with _ | oc
  · unfold lzwAdd
    dsimp only
    exact ⟨h9, h12, h4096, by omega⟩
  · unfold lzwAdd
    dsimp only
    split_ifs with hfull hwiden
    · dsimp only
      refine ⟨by omega, by omega, by omega, ?_⟩
      rw [dictSet_length]
      omega
    · dsimp only
      refine ⟨by omega, by omega, by omega, ?_⟩
      rw [dictSet_length]
      omega
    · dsimp only
      exact ⟨h9, h12, h4096, by omega⟩

/-- Witness for C10's bounded-growth component at a concrete state. -/
theorem c10_lzw_total_bounded_witness :
    9 ≤ (lzwAdd initDict 258 9 (some 65) [65]).2.2 ∧
    (lzwAdd initDict 258 9 (some 65) [65]).2.2 ≤ 12 ∧
    (lzwAdd initDict 258 9 (some 65) [65]).2.1 ≤ 4096 ∧
    (lzwAdd initDict 258 9 (some 65) [65]).1.length ≤
      (lzwAdd initDict 258 9 (some 65) [65]).2.1 :=
  c10_lzw_total_bounded.2.1 initDict 258 9 (some 65) [65]
    (by norm_num) (by norm_num) (by norm_num)
    (by rw [initDict_length]; norm_num)

/-! ## `extractFallback` (source lines 831-861) and DataView readers

`DataView` reads on the raw buffer always see bytes (values below 256);
reads reached by the code are bounds-checked by the code itself, so the
total `getD _ 0` model agrees with JS on every read actually performed. -/

/-- One byte of the buffer, as `DataView`/`Uint8Array` deliver it. -/
def byteAt (bs : List ℕ) (i : ℕ) : ℕ := bs.getD i 0 % 256

/-- `view.getUint16(off, le)`. -/
def getUint16 (bs : List ℕ) (off : ℕ) (le : Bool) : ℕ :=
  if le then byteAt bs off + 256 * byteAt bs (off + 1)
  else 256 * byteAt bs off + byteAt bs (off + 1)

/-- `view.getUint32(off, le)`. -/
def getUint32 (bs : List ℕ) (off : ℕ) (le : Bool) : ℕ :=
  if le then
    byteAt bs off + 256 * byteAt bs (off + 1) + 65536 * byteAt bs (off + 2) +
      16777216 * byteAt bs (off + 3)
  else
    16777216 * byteAt bs off + 65536 * byteAt bs (off + 1) +
      256 * byteAt bs (off + 2) + byteAt bs (off + 3)

/-- `view.getInt16(off, le)`: the unsigned 16-bit read, sign-extended. -/
def getInt16 (bs : List ℕ) (off : ℕ) (le : Bool) : ℤ :=
  let u := getUint16 bs off le
  if u < 32768 then (u : ℤ) else (u : ℤ) - 65536

/-- `val >= -1 && val <= 2` for `val = getInt16(...)/10000`
(source lines 844-845). -/
def reflectanceOK (s : ℤ) : Bool :=
  decide (-1 ≤ (s : ℚ) / 10000) && decide ((s : ℚ) / 10000 ≤ 2)

/-- The sampling loop of one fallback candidate (source lines 842-846):
count how many of the first `min 100 total` 16-bit values pass
`reflectanceOK`; the candidate qualifies when the count EXCEEDS 80. -/
def candidateOK (buffer : List ℕ) (start total : ℕ) (le : Bool) : Bool :=
  80 < ((List.range (min 100 total)).filter fun i =>
    reflectanceOK (getInt16 buffer (start + i * 2) le)).length

/-- Full-raster extraction at an accepted candidate offset
(source lines 848-851). -/
def extractCandidate (buffer : List ℕ) (start total : ℕ) (le : Bool) :
    List ℚ :=
  (List.range total).map fun i =>
    (getInt16 buffer (start + i * 2) le : ℚ) / 10000

/-- The fixed candidate offsets (source line 838); the end-aligned one can be
negative, hence `ℤ`. -/
def fallbackStarts (buffer : List ℕ) (total : ℕ) : List ℤ :=
  [8, 256, 512, (buffer.length : ℤ) - (total * 2 : ℕ)]

/-- A candidate is used iff it is in bounds and its sample passes
(source lines 840-848). -/
def fallbackAccept (buffer : List ℕ) (total : ℕ) (le : Bool) (st : ℤ) :
    Bool :=
  decide (0 ≤ st) && decide (st + ((total * 2 : ℕ) : ℤ) ≤ (buffer.length : ℤ))
    && candidateOK buffer st.toNat total le

/-- `extractFallback` (source lines 831-861): the first accepted candidate in
the fixed order is extracted in full; when none qualifies, the declared-size
all-zero raster is returned. -/
def extractFallback (buffer : List ℕ) (width height : ℕ) (le : Bool) :
    List ℚ :=
  let total := width * height
  match (fallbackStarts buffer total).find? (fallbackAccept buffer total le)
    with
  | some st => extractCandidate buffer st.toNat total le
  | none => List.replicate total 0

theorem reflectanceOK_iff (s : ℤ) :
    reflectanceOK s = true ↔ -10000 ≤ s ∧ s ≤ 20000 := by
  unfold reflectanceOK
  rw [Bool.and_eq_true, decide_eq_true_iff, decide_eq_true_iff,
    div_le_iff₀ (by norm_num : (0:ℚ) < 10000),
    le_div_iff₀ (by norm_num : (0:ℚ) < 10000)]
  constructor
  · rintro ⟨h1, h2⟩
    constructor <;> [exact_mod_cast h1; exact_mod_cast h2]
  · rintro ⟨h1, h2⟩
    constructor <;> [exact_mod_cast h1; exact_mod_cast h2]

theorem extractCandidate_length (buffer : List ℕ) (start total : ℕ)
    (le : Bool) : (extractCandidate buffer start total le).length = total := by
  rw [extractCandidate, List.length_map, List.length_range]

theorem extractFallback_length (buffer : List ℕ) (width height : ℕ)
    (le : Bool) : (extractFallback buffer width height le).length =
      width * height := by
  rw [extractFallback]
  rcases hf : (fallbackStarts buffer (width * height)).find?
      (fallbackAccept buffer (width * height) le) with _ | st
  · simp
  · simp [extractCandidate_length]

/-! ## `parseTiffInt16ToFloat32` (source lines 574-710)

The Deflate library (`DecompressionStream`, source lines 786-828) is an
external collaborator: the parse is parameterised over an oracle
`deflate : List ℕ → Option (List ℕ)`, `none` meaning both framings were
rejected (`decompressDeflate` threw). -/

/-- Parsed IFD state (compression, strip tables, rows-per-strip). -/
structure TiffTags where
  compression : ℕ
  stripOffsets : List ℕ
  stripByteCounts : List ℕ
  rowsPerStrip : ℕ
deriving DecidableEq

/-- The counted-pointer read
`for (j = 0; j < count && ptr + j*4 + 4 <= len; j++) push(getUint32(...))`
(source lines 623-625 and 633-635); the bound is monotone in `j`, so the
loop's early exit is a `takeWhile`. -/
def readPtrArray (bs : List ℕ) (le : Bool) (ptr count : ℕ) : List ℕ :=
  ((List.range count).takeWhile fun j =>
    decide (ptr + j * 4 + 4 ≤ bs.length)).map fun j =>
      getUint32 bs (ptr + j * 4) le

/-- One IFD entry's effect on the parsed state (source lines 607-638). -/
def applyEntry (bs : List ℕ) (le : Bool) (entryOffset : ℕ) (acc : TiffTags) :
    TiffTags :=
  let tag := getUint16 bs entryOffset le
  let type := getUint16 bs (entryOffset + 2) le
  let count := getUint32 bs (entryOffset + 4) le
  let valueField := entryOffset + 8
  let getValue := if type = 3 then getUint16 bs valueField le
    else getUint32 bs valueField le
  let getPointer := getUint32 bs valueField le
  if tag = 259 then { acc with compression := getValue }
  else if tag = 278 then { acc with rowsPerStrip := getValue }
  else if tag = 273 then
    if count = 1 then { acc with stripOffsets := [getValue] }
    else { acc with stripOffsets :=
      acc.stripOffsets ++ readPtrArray bs le getPointer count }
  else if tag = 279 then
    if count = 1 then { acc with stripByteCounts := [getValue] }
    else { acc with stripByteCounts :=
      acc.stripByteCounts ++ readPtrArray bs le getPointer count }
  else acc

/-- The IFD entry loop (source lines 603-639): entries in order, stopping at
the first entry that runs past the buffer. -/
def entriesLoop (bs : List ℕ) (le : Bool) (ifdOffset : ℕ) :
    List ℕ → TiffTags → TiffTags
  | [], acc => acc
  | i :: rest, acc =>
      if ifdOffset + 2 + i * 12 + 12 > bs.length then acc
      else entriesLoop bs le ifdOffset rest
        (applyEntry bs le (ifdOffset + 2 + i * 12) acc)

/-- Whether the first two bytes read as little-endian
(`byte0 === 0x49 && byte1 === 0x49`, source line 585). -/
def tiffLE (buffer : List ℕ) : Bool :=
  (byteAt buffer 0 == 73) && (byteAt buffer 1 == 73)

/-- The parsed IFD of a buffer (source lines 591-639), with the source's
initial state: compression 1, empty strip tables, `rowsPerStrip = height`. -/
def tiffTags (buffer : List ℕ) (height : ℕ) : TiffTags :=
  let le := tiffLE buffer
  let ifdOffset := getUint32 buffer 4 le
  let numEntries := getUint16 buffer ifdOffset le
  entriesLoop buffer le ifdOffset (List.range numEntries)
    { compression := 1, stripOffsets := [], stripByteCounts := [],
      rowsPerStrip := height }

/-- `floor(data.length / 2)` 16-bit samples of a decompressed strip
(source lines 651-654). -/
def int16Samples (data : List ℕ) (le : Bool) : List ℤ :=
  (List.range (data.length / 2)).map fun i => getInt16 data (i * 2) le

/-- The inner sample-store loop shared by the LZW and Deflate branches
(source lines 653-656 and 686-689):
`for (i = 0; i < pixelCount && pixelIndex < totalPixels; i++)
   result[pixelIndex++] = int16Val / 10000`. -/
def fillSamples (samples : List ℤ) (result : List ℚ) (pixelIndex : ℕ) :
    List ℚ × ℕ :=
  match samples with
  | [] => (result, pixelIndex)
  | s :: rest =>
      if pixelIndex < result.length then
        fillSamples rest (result.set pixelIndex ((s : ℚ) / 10000))
          (pixelIndex + 1)
      else (result, pixelIndex)

/-- The LZW strip loop (source lines 647-657). -/
def lzwStrips (buffer : List ℕ) (le : Bool) :
    List ℕ → List ℕ → List ℚ → ℕ → List ℚ × ℕ
  | [], _, result, pixelIndex => (result, pixelIndex)
  | off :: rest, counts, result, pixelIndex =>
      if pixelIndex < result.length then
        let stripData := decompressLZW buffer off (counts.headD 0)
        let filled := fillSamples (int16Samples stripData le) result pixelIndex
        lzwStrips buffer le rest counts.tail filled.1 filled.2
      else (result, pixelIndex)

/-- The per-index body of one uncompressed strip (source lines 666-672):
out-of-buffer positions are skipped without advancing `pixelIndex`. -/
def rawStripLoop (buffer : List ℕ) (le : Bool) (offset : ℕ) :
    List ℕ → List ℚ → ℕ → List ℚ × ℕ
  | [], result, pixelIndex => (result, pixelIndex)
  | i :: rest, result, pixelIndex =>
      if pixelIndex < result.length then
        if offset + i * 2 + 2 ≤ buffer.length then
          rawStripLoop buffer le offset rest
            (result.set pixelIndex
              ((getInt16 buffer (offset + i * 2) le : ℚ) / 10000))
            (pixelIndex + 1)
        else rawStripLoop buffer le offset rest result pixelIndex
      else (result, pixelIndex)

/-- The uncompressed strip loop (source lines 660-673), with the
`stripByteCounts[s] || totalPixels*2` default. -/
def rawStrips (buffer : List ℕ) (le : Bool) (total : ℕ) :
    List ℕ → List ℕ → List ℚ → ℕ → List ℚ × ℕ
  | [], _, result, pixelIndex => (result, pixelIndex)
  | off :: rest, counts, result, pixelIndex =>
      if pixelIndex < result.length then
        let byteCount := if counts.headD 0 = 0 then total * 2
          else counts.headD 0
        let filled := rawStripLoop buffer le off
          (List.range (byteCount / 2)) result pixelIndex
        rawStrips buffer le total rest counts.tail filled.1 filled.2
      else (result, pixelIndex)

/-- The zero-fill recovery of a failed Deflate strip (source lines 692-696). -/
def zeroFill : ℕ → List ℚ → ℕ → List ℚ × ℕ
  | 0, result, pixelIndex => (result, pixelIndex)
  | n + 1, result, pixelIndex =>
      if pixelIndex < result.length then
        zeroFill n (result.set pixelIndex 0) (pixelIndex + 1)
      else (result, pixelIndex)

/-- The Deflate strip loop (source lines 679-698): each strip's slice is
passed to the external library; a `none` (both framings rejected) zero-fills
the strip's `rowsPerStrip * width` pixel range and decoding continues. -/
def deflateStrips (buffer : List ℕ) (le : Bool)
    (deflate : List ℕ → Option (List ℕ)) (rowsPerStrip width : ℕ) :
    List ℕ → List ℕ → List ℚ → ℕ → List ℚ × ℕ
  | [], _, result, pixelIndex => (result, pixelIndex)
  | off :: rest, counts, result, pixelIndex =>
      if pixelIndex < result.length then
        let filled :=
          match deflate ((buffer.drop off).take (counts.headD 0)) with
          | some decompressed =>
              fillSamples (int16Samples decompressed le) result pixelIndex
          | none => zeroFill (rowsPerStrip * width) result pixelIndex
        deflateStrips buffer le deflate rowsPerStrip width rest counts.tail
          filled.1 filled.2
      else (result, pixelIndex)

/-- A decode's outcome: the raster and whether `extractFallback` produced
it.  The flag instruments the source's control flow (calls at lines 702 and
706); it adds no behaviour. -/
structure ParseResult where
  raster : List ℚ
  usedFallback : Bool
deriving DecidableEq

/-- `parseTiffInt16ToFloat32` (source lines 574-710).  The three `throw`
sites become `Except.error` with the source's messages; every other path
returns `Except.ok`. -/
def parseTiffInt16ToFloat32 (buffer : List ℕ) (width height : ℕ)
    (deflate : List ℕ → Option (List ℕ)) : Except String ParseResult :=
  let totalPixels := width * height
  if buffer.length < 8 then .error "Buffer too small for TIFF"
  else
    let byte0 := byteAt buffer 0
    let le := tiffLE buffer
    if byte0 ≠ 73 ∧ byte0 ≠ 77 then .error "Invalid TIFF header"
    else
      let ifdOffset := getUint32 buffer 4 le
      if ifdOffset + 2 > buffer.length then .error "Invalid IFD offset"
      else
        let tags := tiffTags buffer height
        let zeroRaster : List ℚ := List.replicate totalPixels 0
        if tags.compression = 5 then
          .ok ⟨(lzwStrips buffer le tags.stripOffsets tags.stripByteCounts
            zeroRaster 0).1, false⟩
        else if tags.compression = 1 then
          .ok ⟨(rawStrips buffer le totalPixels tags.stripOffsets
            tags.stripByteCounts zeroRaster 0).1, false⟩
        else if tags.compression = 8 ∨ tags.compression = 32946 then
          let filled := deflateStrips buffer le deflate tags.rowsPerStrip
            width tags.stripOffsets tags.stripByteCounts zeroRaster 0
          if 2 * filled.2 < totalPixels then
            .ok ⟨extractFallback buffer width height le, true⟩
          else .ok ⟨filled.1, false⟩
        else
          .ok ⟨extractFallback buffer width height le, true⟩

theorem reflectanceOK_eq_decide (s : ℤ) :
    reflectanceOK s = decide (-10000 ≤ s ∧ s ≤ 20000) := by
  rcases h : reflectanceOK s with _ | _
  · have hnp : ¬(-10000 ≤ s ∧ s ≤ 20000) := fun hp => by
      rw [(reflectanceOK_iff s).2 hp] at h
      cases h
    simp [hnp]
  · have hp := (reflectanceOK_iff s).1 h
    simp [hp]

theorem candidateOK_eq (buffer : List ℕ) (start total : ℕ) (le : Bool) :
    candidateOK buffer start total le =
      decide (80 < ((List.range (min 100 total)).filter fun i =>
        decide (-10000 ≤ getInt16 buffer (start + i * 2) le ∧
          getInt16 buffer (start + i * 2) le ≤ 20000)).length) := by
  unfold candidateOK
  rw [List.filter_congr fun i _ => reflectanceOK_eq_decide
    (getInt16 buffer (start + i * 2) le)]

/-- The concrete buffer of the C7 counterexample: 8 header bytes, then
twenty out-of-range samples (32767, scaled 3.2767) followed by eighty
in-range zero samples, little-endian. -/
def c7buf : List ℕ :=
  List.replicate 8 0 ++ ((List.range 20).flatMap fun _ => [255, 127]) ++
    List.replicate 160 0

/-- **C7 counterexample.** On a 10×10 raster whose first candidate offset
has EXACTLY 80 of its 100 sampled values inside [-1, 2], the scanner
accepts nothing (the code demands strictly more than 80) and returns the
all-zero raster instead of extracting the candidate data, which is not
all-zero.  The claim's "at least 80" acceptance bound is wrong. -/
theorem c7_counterexample :
    ((List.range (min 100 (10 * 10))).filter fun i =>
      reflectanceOK (getInt16 c7buf (8 + i * 2) true)).length = 80 ∧
    extractFallback c7buf 10 10 true = List.replicate 100 0 ∧
    extractFallback c7buf 10 10 true ≠ extractCandidate c7buf 8 100 true := by
  have hfilter : ((List.range (min 100 (10 * 10))).filter fun i =>
      reflectanceOK (getInt16 c7buf (8 + i * 2) true)) =
      ((List.range (min 100 (10 * 10))).filter fun i =>
        decide (-10000 ≤ getInt16 c7buf (8 + i * 2) true ∧
          getInt16 c7buf (8 + i * 2) true ≤ 20000)) :=
    List.filter_congr fun i _ => reflectanceOK_eq_decide
      (getInt16 c7buf (8 + i * 2) true)
  have hacc : ∀ st : ℤ, fallbackAccept c7buf 100 true st =
      (decide (0 ≤ st) && decide (st + ((100 * 2 : ℕ) : ℤ) ≤
        (c7buf.length : ℤ)) &&
       decide (80 < ((List.range (min 100 100)).filter fun i =>
        decide (-10000 ≤ getInt16 c7buf (st.toNat + i * 2) true ∧
          getInt16 c7buf (st.toNat + i * 2) true ≤ 20000)).length)) := by
    intro st
    rw [fallbackAccept, candidateOK_eq]
  have hstarts : fallbackStarts c7buf 100 = [8, 256, 512, 8] := by
    have hlen : c7buf.length = 208 := by decide
    rw [fallbackStarts, hlen]
    norm_num
  have hfind : (fallbackStarts c7buf 100).find?
      (fallbackAccept c7buf 100 true) = none := by
    rw [hstarts]
    have h8 : fallbackAccept c7buf 100 true 8 = false := by
      rw [hacc]; decide
    have h256 : fallbackAccept c7buf 100 true 256 = false := by
      rw [hacc]; decide
    have h512 : fallbackAccept c7buf 100 true 512 = false := by
      rw [hacc]; decide
    simp [List.find?, h8, h256, h512]
  refine ⟨by rw [hfilter]; decide, ?_, ?_⟩
  · rw [extractFallback]
    rw [show (10 : ℕ) * 10 = 100 from rfl, hfind]
  · rw [extractFallback, show (10 : ℕ) * 10 = 100 from rfl, hfind]
    intro heq
    dsimp only at heq
    have h0 := congrArg (fun l => l.getD 0 0) heq
    dsimp only at h0
    rw [show (List.replicate 100 (0 : ℚ)).getD 0 0 = 0 from rfl] at h0
    rw [extractCandidate] at h0
    have hr : (List.range 100).map (fun i =>
        (getInt16 c7buf (8 + i * 2) true : ℚ) / 10000) =
        ((getInt16 c7buf 8 true : ℚ) / 10000) :: ((List.range' 1 99).map
          (fun i => (getInt16 c7buf (8 + i * 2) true : ℚ) / 10000)) := by
      rw [List.range_eq_range', show (100 : ℕ) = 1 + 99 from rfl,
        List.range'_succ]
      simp
    rw [hr] at h0
    simp only [List.getD_cons_zero] at h0
    have hs : getInt16 c7buf 8 true = 32767 := by decide
    rw [hs] at h0
    norm_num at h0

/-- **C7 (amended).** The fallback scanner accepts a candidate byte offset
if and only if STRICTLY MORE than 80 (i.e. at least 81) of the first
`min 100 total` sampled 16-bit values at that offset, divided by 10000,
fall within [-1, 2]; the first accepted in-bounds candidate in the fixed
order `[8, 256, 512, end-aligned]` is used to extract the full raster, and
if no candidate qualifies the scanner returns an all-zero raster of the
declared dimensions without throwing (the result always has `w*h`
entries). -/
theorem c7_fallback_spec (buffer : List ℕ) (w h : ℕ) (le : Bool) :
    (extractFallback buffer w h le).length = w * h ∧
    (∀ start total, candidateOK buffer start total le = true ↔
      81 ≤ ((List.range (min 100 total)).filter fun i =>
        reflectanceOK (getInt16 buffer (start + i * 2) le)).length) ∧
    (∀ st, (fallbackStarts buffer (w * h)).find?
        (fallbackAccept buffer (w * h) le) = some st →
      extractFallback buffer w h le =
        extractCandidate buffer st.toNat (w * h) le) ∧
    ((fallbackStarts buffer (w * h)).find?
        (fallbackAccept buffer (w * h) le) = none →
      extractFallback buffer w h le = List.replicate (w * h) 0) := by
  refine ⟨extractFallback_length buffer w h le, ?_, ?_, ?_⟩
  · intro start total
    unfold candidateOK
    rw [decide_eq_true_iff]
    omega
  · intro st hst
    rw [extractFallback, hst]
  · intro hnone
    rw [extractFallback, hnone]

/-- Witness for C7 at the empty buffer and 0×0 raster: no candidate is in
bounds with a passing sample, so the scanner returns the empty raster. -/
theorem c7_fallback_spec_witness :
    (extractFallback [] 0 0 true).length = 0 * 0 ∧
    extractFallback [] 0 0 true = List.replicate (0 * 0) 0 :=
  ⟨(c7_fallback_spec [] 0 0 true).1,
   (c7_fallback_spec [] 0 0 true).2.2.2 (by decide)⟩

/-- The concrete buffer of the C5 counterexample: first two bytes `I`, NUL
(neither `II` nor `MM`), IFD offset 8 (big-endian, since byte 1 is not `I`),
zero IFD entries. -/
def c5buf : List ℕ := [73, 0, 0, 0, 0, 0, 0, 8, 0, 0]

/-- **C5 counterexample.** A buffer whose first two bytes are `"I\\0"` —
neither `II` nor `MM` — is NOT rejected: the code checks only the first
byte, treats the file as big-endian, and returns a raster.  The claim's
"any other two-byte value is a malformed-header error" is wrong. -/
theorem c5_counterexample :
    byteAt c5buf 0 = 73 ∧ byteAt c5buf 1 = 0 ∧
    ¬(byteAt c5buf 0 = 73 ∧ byteAt c5buf 1 = 73) ∧
    ¬(byteAt c5buf 0 = 77 ∧ byteAt c5buf 1 = 77) ∧
    parseTiffInt16ToFloat32 c5buf 1 1 (fun _ => none) =
      .ok ⟨[0], false⟩ := by
  refine ⟨by decide, by decide, by decide, by decide, rfl⟩

/-- **C5 (amended).** The TIFF container parse raises a fatal parse error
exactly when the input buffer is shorter than 8 bytes, or the FIRST byte is
neither `I` (0x49) nor `M` (0x4D) — the second byte is not checked — or the
IFD offset read at byte 4 (plus the 2-byte entry count) runs past the buffer
end; no other error is raised, and in every fatal case an `Except.error`
carrying no raster is returned.  The byte order is little-endian exactly
when the first TWO bytes are both `I`, and big-endian otherwise. -/
theorem c5_header_errors (buffer : List ℕ) (w h : ℕ)
    (deflate : List ℕ → Option (List ℕ)) :
    (buffer.length < 8 →
      parseTiffInt16ToFloat32 buffer w h deflate =
        .error "Buffer too small for TIFF") ∧
    (8 ≤ buffer.length → byteAt buffer 0 ≠ 73 → byteAt buffer 0 ≠ 77 →
      parseTiffInt16ToFloat32 buffer w h deflate =
        .error "Invalid TIFF header") ∧
    (8 ≤ buffer.length → (byteAt buffer 0 = 73 ∨ byteAt buffer 0 = 77) →
      buffer.length < getUint32 buffer 4 (tiffLE buffer) + 2 →
      parseTiffInt16ToFloat32 buffer w h deflate =
        .error "Invalid IFD offset") ∧
    (8 ≤ buffer.length → (byteAt buffer 0 = 73 ∨ byteAt buffer 0 = 77) →
      getUint32 buffer 4 (tiffLE buffer) + 2 ≤ buffer.length →
      ∃ r, parseTiffInt16ToFloat32 buffer w h deflate = .ok r) ∧
    (∀ e, parseTiffInt16ToFloat32 buffer w h deflate = .error e →
      e = "Buffer too small for TIFF" ∨ e = "Invalid TIFF header" ∨
        e = "Invalid IFD offset") ∧
    (tiffLE buffer = true ↔ byteAt buffer 0 = 73 ∧ byteAt buffer 1 = 73) := by
  refine ⟨?_, ?_, ?_, ?_, ?_, ?_⟩
  · intro hs
    rw [parseTiffInt16ToFloat32, if_pos hs]
  · intro hs h73 h77
    rw [parseTiffInt16ToFloat32, if_neg (by omega), if_pos ⟨h73, h77⟩]
  · intro hs hb hifd
    rw [parseTiffInt16ToFloat32, if_neg (by omega),
      if_neg (by rcases hb with hb | hb <;> simp [hb]), if_pos (by omega)]
  · intro hs hb hifd
    rw [parseTiffInt16ToFloat32, if_neg (by omega),
      if_neg (by rcases hb with hb | hb <;> simp [hb]), if_neg (by omega)]
    dsimp only
    split_ifs <;> exact ⟨_, rfl⟩
  · intro e he
    rw [parseTiffInt16ToFloat32] at he
    split_ifs at he with h1
    · simp only [Except.error.injEq] at he
      exact Or.inl he.symm
    · dsimp only at he
      split_ifs at he with h2 h3
      · simp only [Except.error.injEq] at he
        exact Or.inr (Or.inl he.symm)
      · simp only [Except.error.injEq] at he
        exact Or.inr (Or.inr he.symm)
  · unfold tiffLE
    rw [Bool.and_eq_true, beq_iff_eq, beq_iff_eq]

/-- Witness for C5: a too-short buffer and an `"XX"` buffer both error. -/
theorem c5_header_errors_witness :
    parseTiffInt16ToFloat32 [] 1 1 (fun _ => none) =
      .error "Buffer too small for TIFF" ∧
    parseTiffInt16ToFloat32 [88, 88, 0, 0, 0, 0, 0, 0] 1 1 (fun _ => none) =
      .error "Invalid TIFF header" :=
  ⟨(c5_header_errors [] 1 1 (fun _ => none)).1 (by norm_num),
   (c5_header_errors [88, 88, 0, 0, 0, 0, 0, 0] 1 1 (fun _ => none)).2.1
     (by norm_num) (by decide) (by decide)⟩

/-- The concrete buffer of the C8 counterexample: a little-endian TIFF with
one IFD entry setting Compression (tag 259) to 5 (LZW) and no strip
tables, so the LZW pass recovers 0 of 1 pixels. -/
def c8buf : List ℕ :=
  [73, 73, 42, 0, 8, 0, 0, 0, 1, 0, 3, 1, 3, 0, 1, 0, 0, 0, 5, 0, 0, 0]

/-- **C8 counterexample.** An LZW-compressed parse (compression 5) that
recovers 0 of 1 expected pixels — far below 50% — does NOT invoke the
fallback scanner: the under-recovery check exists only in the Deflate
branch.  The claim's clause (b) is wrong for LZW. -/
theorem c8_counterexample :
    (tiffTags c8buf 1).compression = 5 ∧
    2 * (lzwStrips c8buf true (tiffTags c8buf 1).stripOffsets
      (tiffTags c8buf 1).stripByteCounts (List.replicate 1 0) 0).2 <
      1 * 1 ∧
    parseTiffInt16ToFloat32 c8buf 1 1 (fun _ => none) =
      .ok ⟨[0], false⟩ :=
  ⟨by decide, by decide, rfl⟩

/-- **C8 (amended).** On every successfully parsed buffer, the fallback
scanner is invoked exactly when (a) the compression code is none of 1, 5, 8,
32946, or (b) the compression is Deflate (8 or 32946) and the Deflate pass
recovered fewer than 50% of the expected `w*h` pixels.  An LZW pass
(compression 5) never falls back, no matter how few pixels it recovers. -/
theorem c8_fallback_dispatch (buffer : List ℕ) (w h : ℕ)
    (deflate : List ℕ → Option (List ℕ)) (r : ParseResult)
    (hok : parseTiffInt16ToFloat32 buffer w h deflate = .ok r) :
    r.usedFallback = true ↔
      ((tiffTags buffer h).compression ≠ 1 ∧
       (tiffTags buffer h).compression ≠ 5 ∧
       (tiffTags buffer h).compression ≠ 8 ∧
       (tiffTags buffer h).compression ≠ 32946) ∨
      (((tiffTags buffer h).compression = 8 ∨
        (tiffTags buffer h).compression = 32946) ∧
       2 * (deflateStrips buffer (tiffLE buffer) deflate
          (tiffTags buffer h).rowsPerStrip w (tiffTags buffer h).stripOffsets
          (tiffTags buffer h).stripByteCounts
          (List.replicate (w * h) 0) 0).2 < w * h) := by
  rw [parseTiffInt16ToFloat32] at hok
  dsimp only at hok
  split_ifs at hok with h1 h2 h3 h4 h5 h6 h7
  · injection hok with h
    subst h
    simp only [Bool.false_eq_true, false_iff]
    rintro (⟨_, hc5, _, _⟩ | ⟨hc8, _⟩)
    · exact hc5 h4
    · rw [h4] at hc8
      rcases hc8 with hc8 | hc8 <;> cases hc8
  · injection hok with h
    subst h
    simp only [Bool.false_eq_true, false_iff]
    rintro (⟨hc1, _, _, _⟩ | ⟨hc8, _⟩)
    · exact hc1 h5
    · rw [h5] at hc8
      rcases hc8 with hc8 | hc8 <;> cases hc8
  · injection hok with h
    subst h
    simp only [true_iff]
    exact Or.inr ⟨h6, h7⟩
  · injection hok with h
    subst h
    simp only [Bool.false_eq_true, false_iff]
    rintro (⟨_, _, hc8, hc32⟩ | ⟨hc8, hcnt⟩)
    · rcases h6 with h6 | h6
      · exact hc8 h6
      · exact hc32 h6
    · exact h7 hcnt
  · injection hok with h
    subst h
    simp only [true_iff]
    exact Or.inl ⟨h5, h4, fun hc => h6 (Or.inl hc), fun hc => h6 (Or.inr hc)⟩

/-- Witness for C8 at the counterexample buffer: the LZW branch never sets
the fallback flag. -/
theorem c8_fallback_dispatch_witness :
    ((⟨[0], false⟩ : ParseResult).usedFallback = true ↔
      ((tiffTags c8buf 1).compression ≠ 1 ∧
       (tiffTags c8buf 1).compression ≠ 5 ∧
       (tiffTags c8buf 1).compression ≠ 8 ∧
       (tiffTags c8buf 1).compression ≠ 32946) ∨
      (((tiffTags c8buf 1).compression = 8 ∨
        (tiffTags c8buf 1).compression = 32946) ∧
       2 * (deflateStrips c8buf (tiffLE c8buf) (fun _ => none)
          (tiffTags c8buf 1).rowsPerStrip 1 (tiffTags c8buf 1).stripOffsets
          (tiffTags c8buf 1).stripByteCounts
          (List.replicate (1 * 1) 0) 0).2 < 1 * 1)) :=
  c8_fallback_dispatch c8buf 1 1 (fun _ => none) ⟨[0], false⟩ rfl

theorem getD_set_self (l : List ℚ) (i : ℕ) (a : ℚ) (h : i < l.length) :
    (l.set i a).getD i 0 = a := by
  rw [List.getD_eq_getElem?_getD, List.getElem?_set_self h]
  rfl

theorem getD_set_ne (l : List ℚ) (i j : ℕ) (a : ℚ) (h : i ≠ j) :
    (l.set i a).getD j 0 = l.getD j 0 := by
  rw [List.getD_eq_getElem?_getD, List.getElem?_set_ne h,
    ← List.getD_eq_getElem?_getD]

/-- The SampleConverter loop `fillSamples` writes the first
`min samples.length (free space)` samples, each divided by 10000, at
consecutive positions starting at `pixelIndex`, leaves every other position
(in particular everything past the samples) unchanged, and never fails on a
short stream. -/
theorem fillSamples_spec (samples : List ℤ) :
    ∀ (result : List ℚ) (p : ℕ),
      (fillSamples samples result p).1.length = result.length ∧
      (fillSamples samples result p).2 =
        p + min samples.length (result.length - p) ∧
      ∀ j, (fillSamples samples result p).1.getD j 0 =
        if p ≤ j ∧ j < p + min samples.length (result.length - p)
        then (samples.getD (j - p) 0 : ℚ) / 10000
        else result.getD j 0 := by
  induction samples with
  | nil =>
      intro result p
      refine ⟨rfl, by simp [fillSamples], ?_⟩
      intro j
      rw [fillSamples, if_neg (by simp)]
  | cons s rest ih =>
      intro result p
      rw [fillSamples]
      split_ifs with hp
      · obtain ⟨ihlen, ihcount, ihpt⟩ := ih (result.set p ((s : ℚ) / 10000))
          (p + 1)
        rw [List.length_set] at ihlen ihcount ihpt
        refine ⟨ihlen, ?_, ?_⟩
        · rw [ihcount, List.length_cons]
          omega
        · intro j
          rw [ihpt j, List.length_cons]
          rcases Nat.lt_trichotomy j p with hj | hj | hj
          · rw [if_neg (by omega), if_neg (by omega),
              getD_set_ne _ _ _ _ (by omega)]
          · subst hj
            rw [if_neg (by omega), if_pos (by omega), getD_set_self _ _ _ hp,
              Nat.sub_self, List.getD_cons_zero]
          · by_cases hin : j < p + 1 + min rest.length (result.length - (p + 1))
            · rw [if_pos ⟨by omega, hin⟩, if_pos (by omega)]
              have : j - p = (j - (p + 1)) + 1 := by omega
              rw [this, List.getD_cons_succ]
            · rw [if_neg (by omega), if_neg (by omega),
                getD_set_ne _ _ _ _ (by omega)]
      · refine ⟨rfl, by rw [List.length_cons]; omega, ?_⟩
        intro j
        rw [if_neg (by omega)]

theorem lzwStrips_length (buffer : List ℕ) (le : Bool) :
    ∀ (offs counts : List ℕ) (result : List ℚ) (p : ℕ),
      (lzwStrips buffer le offs counts result p).1.length = result.length := by
  intro offs
  induction offs with
  | nil => intro counts result p; rfl
  | cons off rest ih =>
      intro counts result p
      rw [lzwStrips]
      split_ifs with hp
      · rw [ih]
        exact (fillSamples_spec _ _ _).1
      · rfl

theorem rawStripLoop_length (buffer : List ℕ) (le : Bool) (offset : ℕ) :
    ∀ (is : List ℕ) (result : List ℚ) (p : ℕ),
      (rawStripLoop buffer le offset is result p).1.length =
        result.length := by
  intro is
  induction is with
  | nil => intro result p; rfl
  | cons i rest ih =>
      intro result p
      rw [rawStripLoop]
      split_ifs with hp hin
      · rw [ih, List.length_set]
      · rw [ih]
      · rfl

theorem rawStrips_length (buffer : List ℕ) (le : Bool) (total : ℕ) :
    ∀ (offs counts : List ℕ) (result : List ℚ) (p : ℕ),
      (rawStrips buffer le total offs counts result p).1.length =
        result.length := by
  intro offs
  induction offs with
  | nil => intro counts result p; rfl
  | cons off rest ih =>
      intro counts result p
      rw [rawStrips]
      dsimp only
      split_ifs with hp h0
      · rw [ih, rawStripLoop_length]
      · rw [ih, rawStripLoop_length]
      · rfl

theorem zeroFill_length :
    ∀ (n : ℕ) (result : List ℚ) (p : ℕ),
      (zeroFill n result p).1.length = result.length := by
  intro n
  induction n with
  | zero => intro result p; rfl
  | succ m ih =>
      intro result p
      rw [zeroFill]
      split_ifs with hp
      · rw [ih, List.length_set]
      · rfl

theorem deflateStrips_length (buffer : List ℕ) (le : Bool)
    (deflate : List ℕ → Option (List ℕ)) (rows width : ℕ) :
    ∀ (offs counts : List ℕ) (result : List ℚ) (p : ℕ),
      (deflateStrips buffer le deflate rows width offs counts result
        p).1.length = result.length := by
  intro offs
  induction offs with
  | nil => intro counts result p; rfl
  | cons off rest ih =>
      intro counts result p
      rw [deflateStrips]
      split_ifs with hp
      · rw [ih]
        rcases hd : deflate ((buffer.drop off).take (counts.headD 0)) with
          _ | dec
        · simp only [hd]
          exact zeroFill_length _ _ _
        · simp only [hd]
          exact (fillSamples_spec _ _ _).1
      · rfl

/-- **C6.** For every input on which the decode does not raise a fatal
parse error, the returned raster contains exactly `w*h` entries; the
sample-store loop (`fillSamples`) writes exactly the samples the
decompressed stream yields, each divided by 10000, at consecutive
positions, and leaves every position beyond them at its prior
(zero-initialised) value, never failing on a stream shorter than `w*h`
samples; and the only errors ever raised are the three fatal header
errors. -/
theorem c6_decode_fill (buffer : List ℕ) (w h : ℕ)
    (deflate : List ℕ → Option (List ℕ)) :
    (∀ r, parseTiffInt16ToFloat32 buffer w h deflate = .ok r →
      r.raster.length = w * h) ∧
    (∀ (samples : List ℤ) (result : List ℚ) (p : ℕ),
      (fillSamples samples result p).1.length = result.length ∧
      (fillSamples samples result p).2 =
        p + min samples.length (result.length - p) ∧
      ∀ j, (fillSamples samples result p).1.getD j 0 =
        if p ≤ j ∧ j < p + min samples.length (result.length - p)
        then (samples.getD (j - p) 0 : ℚ) / 10000
        else result.getD j 0) ∧
    (∀ e, parseTiffInt16ToFloat32 buffer w h deflate = .error e →
      e = "Buffer too small for TIFF" ∨ e = "Invalid TIFF header" ∨
        e = "Invalid IFD offset") := by
  refine ⟨?_, fun samples result p => fillSamples_spec samples result p, ?_⟩
  · intro r hok
    rw [parseTiffInt16ToFloat32] at hok
    dsimp only at hok
    split_ifs at hok with h1 h2 h3 h4 h5 h6 h7
    · injection hok with hr
      subst hr
      show (lzwStrips buffer (tiffLE buffer) _ _ _ 0).1.length = w * h
      rw [lzwStrips_length, List.length_replicate]
    · injection hok with hr
      subst hr
      show (rawStrips buffer (tiffLE buffer) _ _ _ _ 0).1.length = w * h
      rw [rawStrips_length, List.length_replicate]
    · injection hok with hr
      subst hr
      exact extractFallback_length buffer w h _
    · injection hok with hr
      subst hr
      show (deflateStrips buffer (tiffLE buffer) deflate _ _ _ _ _ 0).1.length
        = w * h
      rw [deflateStrips_length, List.length_replicate]
    · injection hok with hr
      subst hr
      exact extractFallback_length buffer w h _
  · intro e he
    rw [parseTiffInt16ToFloat32] at he
    dsimp only at he
    split_ifs at he
    · simp only [Except.error.injEq] at he
      exact Or.inl he.symm
    · simp only [Except.error.injEq] at he
      exact Or.inr (Or.inl he.symm)
    · simp only [Except.error.injEq] at he
      exact Or.inr (Or.inr he.symm)

/-- Witness for C6: a minimal big-endian buffer parses to a 1-pixel raster,
and a concrete short stream fills one sample then stops. -/
theorem c6_decode_fill_witness :
    (⟨[0], false⟩ : ParseResult).raster.length = 1 * 1 ∧
    (fillSamples [5000] (List.replicate 2 0) 0).2 =
      0 + min (1 : ℕ) (2 - 0) :=
  ⟨(c6_decode_fill [77, 77, 0, 0, 0, 0, 0, 8, 0, 0] 1 1 (fun _ => none)).1
     ⟨[0], false⟩ rfl,
   (((c6_decode_fill [] 1 1 (fun _ => none)).2.1
     [5000] (List.replicate 2 0) 0).2.1).trans (by
       rw [List.length_replicate]
       norm_num)⟩

/-! ## C3: a reference TIFF-variant LZW encoder, and the round trip

The encoder below follows the claim's description of the reference scheme:
greedy longest-match LZW over the scheme of `decompressLZW` — MSB-first bit
packing, codes starting at 9 bits, clear code 256 emitted at stream start,
end-of-information code 257, a new dictionary entry after each emitted code,
and exactly the decoder's code-size growth rule (widen after the add that
brings `nextCode` to `1 << codeSize`, cap 12, dictionary cap 4096). -/

/-- MSB-first value of a bit string. -/
def bitsVal : List Bool → ℕ
  | [] => 0
  | b :: t => (if b then 1 else 0) * 2 ^ t.length + bitsVal t

/-- The `w` bits of `c`, most significant first. -/
def codeBits (c w : ℕ) : List Bool :=
  (List.range w).map fun i => decide (c / 2 ^ (w - 1 - i) % 2 = 1)

/-- A byte from at most 8 bits, zero-padded at the low end. -/
def byteOf (bs : List Bool) : ℕ :=
  bitsVal (bs ++ List.replicate (8 - bs.length) false)

/-- MSB-first packing of a bit string into bytes, final byte zero-padded. -/
def bytesOfBits (l : List Bool) : List ℕ :=
  if l = [] then [] else byteOf (l.take 8) :: bytesOfBits (l.drop 8)
termination_by l.length
decreasing_by
  rename_i hne
  have : l.length ≠ 0 := fun h => hne (List.eq_nil_of_length_eq_zero h)
  simp only [List.length_drop]
  omega

/-- The bit stream the decoder's `readCode` walks: the bits of the bytes in
`[0, endPos)`, MSB first (`bits8 b = codeBits b 8`). -/
def rangeBits (input : List ℕ) (endPos : ℕ) : List Bool :=
  (List.range endPos).flatMap fun k => codeBits (input.getD k 0 % 256) 8

theorem codeBits_length (c w : ℕ) : (codeBits c w).length = w := by
  rw [codeBits, List.length_map, List.length_range]


theorem bitsVal_append (a b : List Bool) :
    bitsVal (a ++ b) = bitsVal a * 2 ^ b.length + bitsVal b := by
  induction a with
  | nil => simp [bitsVal]
  | cons x t ih =>
      have h : bitsVal ((x :: t) ++ b) =
          (if x then 1 else 0) * 2 ^ (t ++ b).length + bitsVal (t ++ b) := rfl
      have h2 : bitsVal (x :: t) =
          (if x then 1 else 0) * 2 ^ t.length + bitsVal t := rfl
      rw [h, ih, List.length_append, h2, pow_add]
      ring

theorem bitsVal_lt (l : List Bool) : bitsVal l < 2 ^ l.length := by
  induction l with
  | nil => simp [bitsVal]
  | cons b t ih =>
      simp only [bitsVal, List.length_cons, pow_succ]
      rcases b with _ | _ <;> simp <;> omega

theorem codeBits_succ (c w : ℕ) :
    codeBits c (w + 1) = decide (c / 2 ^ w % 2 = 1) :: codeBits c w := by
  rw [codeBits, List.range_succ_eq_map, List.map_cons, List.map_map]
  simp only [Nat.add_sub_cancel, Nat.sub_zero]
  congr 1
  rw [codeBits]
  apply List.map_congr_left
  intro i hi
  simp only [Function.comp_apply]
  have he : w - Nat.succ i = w - 1 - i := by omega
  rw [he]

theorem bitsVal_codeBits (c w : ℕ) : bitsVal (codeBits c w) = c % 2 ^ w := by
  induction w with
  | zero => simp [codeBits, bitsVal, Nat.mod_one]
  | succ m ih =>
      rw [codeBits_succ, bitsVal, codeBits_length, ih, pow_succ,
        Nat.mod_mul]
      rcases Nat.mod_two_eq_zero_or_one (c / 2 ^ m) with hp | hp <;>
        rw [hp] <;> simp <;> omega

theorem bitsVal_codeBits_of_lt {c w : ℕ} (h : c < 2 ^ w) :
    bitsVal (codeBits c w) = c := by
  rw [bitsVal_codeBits, Nat.mod_eq_of_lt h]

theorem codeBits_mod (w : ℕ) : ∀ c, codeBits (c % 2 ^ w) w = codeBits c w := by
  induction w with
  | zero => intro c; rfl
  | succ m ih =>
      intro c
      have h1 : c % 2 ^ (m + 1) = c % 2 ^ m + 2 ^ m * (c / 2 ^ m % 2) := by
        rw [pow_succ, Nat.mod_mul]
      have hmm : c % 2 ^ (m + 1) % 2 ^ m = c % 2 ^ m :=
        Nat.mod_mod_of_dvd c (pow_dvd_pow 2 (Nat.le_succ m))
      have hhead : c % 2 ^ (m + 1) / 2 ^ m % 2 = c / 2 ^ m % 2 := by
        rw [h1, Nat.add_mul_div_left _ _ (Nat.pos_pow_of_pos m (by norm_num)),
          Nat.div_eq_of_lt (Nat.mod_lt _ (Nat.pos_pow_of_pos m (by norm_num)))]
        omega
      rw [codeBits_succ, codeBits_succ, hhead]
      congr 1
      calc codeBits (c % 2 ^ (m + 1)) m
          = codeBits (c % 2 ^ (m + 1) % 2 ^ m) m := (ih _).symm
        _ = codeBits (c % 2 ^ m) m := by rw [hmm]
        _ = codeBits c m := ih c

theorem codeBits_bitsVal (bs : List Bool) :
    codeBits (bitsVal bs) bs.length = bs := by
  induction bs with
  | nil => rfl
  | cons b t ih =>
      have hv : bitsVal (b :: t) =
          (if b then 1 else 0) * 2 ^ t.length + bitsVal t := rfl
      have hlt := bitsVal_lt t
      rw [show (b :: t).length = t.length + 1 from rfl, codeBits_succ]
      congr 1
      · rw [hv]
        rcases b with _ | _
        · simp only [if_neg, Bool.false_eq_true, ite_false, zero_mul,
            zero_add]
          rw [Nat.div_eq_of_lt hlt]
          simp
        · simp only [ite_true, one_mul]
          rw [Nat.add_div_left _ (Nat.pos_pow_of_pos _ (by norm_num)),
            Nat.div_eq_of_lt hlt]
          simp
      · rw [← codeBits_mod]
        have hm : bitsVal (b :: t) % 2 ^ t.length = bitsVal t := by
          rw [hv]
          rcases b with _ | _
          · simp [Nat.mod_eq_of_lt hlt]
          · simp only [ite_true, one_mul]
            rw [Nat.add_mod_left, Nat.mod_eq_of_lt hlt]
        rw [hm, ih]

theorem byteOf_lt (bs : List Bool) (h : bs.length ≤ 8) : byteOf bs < 256 := by
  have hl : (bs ++ List.replicate (8 - bs.length) false).length = 8 := by
    rw [List.length_append, List.length_replicate]
    omega
  have := bitsVal_lt (bs ++ List.replicate (8 - bs.length) false)
  rw [hl] at this
  exact this

theorem codeBits_byteOf (bs : List Bool) (h : bs.length ≤ 8) :
    codeBits (byteOf bs % 256) 8 =
      bs ++ List.replicate (8 - bs.length) false := by
  rw [Nat.mod_eq_of_lt (byteOf_lt bs h), byteOf]
  have hl : (bs ++ List.replicate (8 - bs.length) false).length = 8 := by
    rw [List.length_append, List.length_replicate]
    omega
  calc codeBits (bitsVal (bs ++ List.replicate (8 - bs.length) false)) 8
      = codeBits (bitsVal (bs ++ List.replicate (8 - bs.length) false))
        (bs ++ List.replicate (8 - bs.length) false).length := by rw [hl]
    _ = bs ++ List.replicate (8 - bs.length) false := codeBits_bitsVal _

theorem rangeBits_eq_flatMap (bs : List ℕ) :
    rangeBits bs bs.length = bs.flatMap fun byte => codeBits (byte % 256) 8
    := by
  rw [rangeBits]
  induction bs with
  | nil => rfl
  | cons x t ih =>
      rw [List.length_cons, List.range_succ_eq_map, List.flatMap_cons,
        List.flatMap_map, List.flatMap_cons]
      congr 1

theorem bytesOfBits_bits (l : List Bool) :
    (bytesOfBits l).flatMap (fun byte => codeBits (byte % 256) 8) =
      l ++ List.replicate ((8 - l.length % 8) % 8) false := by
  induction l using bytesOfBits.induct with
  | case1 =>
      rw [bytesOfBits]
      simp
  | case2 l hne ih =>
      rw [bytesOfBits, if_neg hne, List.flatMap_cons,
        codeBits_byteOf _ (by rw [List.length_take]; omega), ih]
      have hpos : 0 < l.length := by
        rcases l with _ | ⟨x, t⟩
        · exact absurd rfl hne
        · simp
      rcases Nat.lt_or_ge l.length 8 with hlen | hlen
      · rw [List.take_of_length_le (by omega),
          List.drop_of_length_le (by omega)]
        simp only [List.nil_append, List.length_nil, Nat.zero_mod,
          Nat.sub_zero, Nat.mod_self, List.replicate_zero, List.append_nil,
          List.append_assoc]
        congr 2
        omega
      · rw [List.length_take, min_eq_left hlen, Nat.sub_self,
          List.replicate_zero, List.append_nil, List.length_drop,
          ← List.append_assoc, List.take_append_drop]
        congr 2
        omega

theorem rangeBits_length (input : List ℕ) (endPos : ℕ) :
    (rangeBits input endPos).length = 8 * endPos := by
  rw [rangeBits, flatMap_length_const _ _ 8 (fun k => codeBits_length _ 8),
    List.length_range]

theorem flatMap_range_segment {α : Type} (f : ℕ → List α) (k n q : ℕ)
    (hf : ∀ i, (f i).length = k) (hq : q < n) :
    (((List.range n).flatMap f).drop (k * q)).take k = f q := by
  induction n with
  | zero => omega
  | succ m ih =>
      rw [List.range_succ, List.flatMap_append, List.flatMap_cons,
        List.flatMap_nil, List.append_nil]
      have hlen : ((List.range m).flatMap f).length = k * m := by
        rw [flatMap_length_const _ _ k hf, List.length_range]
      rcases Nat.lt_or_ge q m with hqm | hqm
      · have hq1 : k * (q + 1) ≤ k * m := Nat.mul_le_mul_left k hqm
        have hq2 : k * (q + 1) = k * q + k := by ring
        have h1 : k * q ≤ ((List.range m).flatMap f).length := by
          rw [hlen]
          omega
        have h2 : k ≤ (((List.range m).flatMap f).drop (k * q)).length := by
          rw [List.length_drop, hlen]
          omega
        rw [List.drop_append_of_le_length h1,
          List.take_append_of_le_length h2]
        exact ih hqm
      · have hq' : q = m := by omega
        subst hq'
        rw [show k * q = ((List.range q).flatMap f).length from hlen.symm,
          List.drop_left, show k = (f q).length from (hf q).symm,
          List.take_length]

/-- The segment of the decoder's bit stream covering byte `q`. -/
theorem rangeBits_segment (input : List ℕ) (endPos q : ℕ) (hq : q < endPos) :
    (((rangeBits input endPos).drop (8 * q)).take 8) =
      codeBits (input.getD q 0 % 256) 8 := by
  rw [rangeBits]
  exact flatMap_range_segment _ 8 endPos q (fun i => codeBits_length _ 8) hq

/-- The refill loop of `readCode`, walked over the bit stream: starting with
the low `bib` bits of `bb` holding stream bits `[n, n+bib)` and at least
`cs` stream bits available, it stops with at least `cs` (and fewer than
`cs + 8`) live bits that are exactly stream bits `[n, n + bits')`. -/
theorem fillBits_spec (input : List ℕ) (endPos cs : ℕ) (hcs9 : 9 ≤ cs)
    (hcs12 : cs ≤ 12) :
    ∀ bb bib bytePos n,
      bytePos ≤ endPos →
      n + bib = 8 * bytePos →
      bb % 2 ^ bib = bitsVal (((rangeBits input endPos).drop n).take bib) →
      bb < 4294967296 →
      bib < cs + 8 →
      n + cs ≤ 8 * endPos →
      (fillBits input endPos cs bb bib bytePos).2.2 ≤ endPos ∧
      n + (fillBits input endPos cs bb bib bytePos).2.1 =
        8 * (fillBits input endPos cs bb bib bytePos).2.2 ∧
      cs ≤ (fillBits input endPos cs bb bib bytePos).2.1 ∧
      (fillBits input endPos cs bb bib bytePos).2.1 < cs + 8 ∧
      (fillBits input endPos cs bb bib bytePos).1 < 4294967296 ∧
      (fillBits input endPos cs bb bib bytePos).1 %
          2 ^ (fillBits input endPos cs bb bib bytePos).2.1 =
        bitsVal (((rangeBits input endPos).drop n).take
          (fillBits input endPos cs bb bib bytePos).2.1) := by
  intro bb bib bytePos
  induction bb, bib, bytePos using fillBits.induct input endPos cs with
  | case1 bb bib bp hcond ih =>
      intro n hbp hn hlow hbb32 hbib hav
      obtain ⟨hlt, hbpe⟩ := hcond
      rw [fillBits, if_pos ⟨hlt, hbpe⟩]
      have hc : input.getD bp 0 % 256 < 256 := Nat.mod_lt _ (by norm_num)
      have hdvd : (2 : ℕ) ^ (bib + 8) ∣ 2 ^ 32 := pow_dvd_pow 2 (by omega)
      have hlow' : ((bb * 256 + input.getD bp 0 % 256) % 4294967296) %
          2 ^ (bib + 8) =
          bitsVal (((rangeBits input endPos).drop n).take (bib + 8)) := by
        have e1 : ((bb * 256 + input.getD bp 0 % 256) % 4294967296) %
            2 ^ (bib + 8) = (bb * 256 + input.getD bp 0 % 256) %
              2 ^ (bib + 8) := by
          rw [show (4294967296 : ℕ) = 2 ^ 32 from rfl]
          exact Nat.mod_mod_of_dvd _ hdvd
        have e2 : (bb * 256 + input.getD bp 0 % 256) % 2 ^ (bib + 8) =
            (bb % 2 ^ bib) * 256 + input.getD bp 0 % 256 := by
          have hM : (0 : ℕ) < 2 ^ bib := Nat.pos_pow_of_pos _ (by norm_num)
          have hsplit : (2 : ℕ) ^ (bib + 8) = 2 ^ bib * 256 := by
            rw [pow_add]
            norm_num
          rw [hsplit, Nat.add_mod, Nat.mul_mod_mul_right,
            Nat.mod_eq_of_lt (show input.getD bp 0 % 256 < 2 ^ bib * 256
              from by nlinarith [hM]),
            Nat.mod_eq_of_lt]
          have h1 : bb % 2 ^ bib < 2 ^ bib := Nat.mod_lt _ hM
          calc bb % 2 ^ bib * 256 + input.getD bp 0 % 256
              < bb % 2 ^ bib * 256 + 256 := by omega
            _ = (bb % 2 ^ bib + 1) * 256 := by ring
            _ ≤ 2 ^ bib * 256 := Nat.mul_le_mul_right 256 (by omega)
        have e3 : ((rangeBits input endPos).drop n).take (bib + 8) =
            ((rangeBits input endPos).drop n).take bib ++
              (((rangeBits input endPos).drop (8 * bp)).take 8) := by
          rw [List.take_add, List.drop_drop, hn]
        have e4 : (((rangeBits input endPos).drop n).take bib).length =
            bib := by
          rw [List.length_take, List.length_drop, rangeBits_length]
          omega
        rw [e1, e2, e3, bitsVal_append,
          rangeBits_segment input endPos bp hbpe, codeBits_length,
          bitsVal_codeBits_of_lt hc, hlow]
        norm_num
      exact ih n (by omega) (by omega) hlow'
        (Nat.mod_lt _ (by norm_num)) (by omega) hav
  | case2 bb bib bp hcond =>
      intro n hbp hn hlow hbb32 hbib hav
      rw [fillBits, if_neg hcond]
      refine ⟨hbp, hn, ?_, hbib, hbb32, hlow⟩
      rcases Nat.lt_or_ge bib cs with hb | hb
      · have hbpe : ¬ bp < endPos := fun hl => hcond ⟨hb, hl⟩
        omega
      · exact hb

/-- Extracting the top `cs` of `b` live bits (`(bitBuffer >> (bib - cs)) &
mask`) yields the first bit-string's value; the remaining low bits hold the
second. -/
theorem extract_code (x b cs : ℕ) (hcs : cs ≤ b) (A B : List Bool)
    (hA : A.length = cs) (hB : B.length = b - cs)
    (hx : x % 2 ^ b = bitsVal (A ++ B)) :
    x / 2 ^ (b - cs) % 2 ^ cs = bitsVal A ∧
    x % 2 ^ (b - cs) = bitsVal B := by
  have hAlt : bitsVal A < 2 ^ cs := by
    have := bitsVal_lt A
    rwa [hA] at this
  have hBlt : bitsVal B < 2 ^ (b - cs) := by
    have := bitsVal_lt B
    rwa [hB] at this
  rw [bitsVal_append, hB] at hx
  set k := b - cs with hk
  have hbk : b = cs + k := by omega
  obtain ⟨Q, hQ⟩ : ∃ Q, x = Q * 2 ^ (cs + k) +
      (bitsVal A * 2 ^ k + bitsVal B) := by
    refine ⟨x / 2 ^ (cs + k), ?_⟩
    rw [← hbk, ← hx]
    have h1 := Nat.mod_add_div x (2 ^ b)
    have h2 : 2 ^ b * (x / 2 ^ b) = x / 2 ^ b * 2 ^ b := Nat.mul_comm _ _
    omega
  have hrearr : Q * 2 ^ (cs + k) + (bitsVal A * 2 ^ k + bitsVal B) =
      (Q * 2 ^ cs + bitsVal A) * 2 ^ k + bitsVal B := by
    rw [pow_add]
    ring
  have hkpos : (0 : ℕ) < 2 ^ k := Nat.pos_pow_of_pos k (by norm_num)
  constructor
  · rw [hQ, hrearr, Nat.add_comm ((Q * 2 ^ cs + bitsVal A) * 2 ^ k)
      (bitsVal B), Nat.add_mul_div_right _ _ hkpos,
      Nat.div_eq_of_lt hBlt, Nat.zero_add, Nat.add_comm (Q * 2 ^ cs)
      (bitsVal A), Nat.add_mul_mod_self_right]
    exact Nat.mod_eq_of_lt hAlt
  · rw [hQ, hrearr, Nat.add_comm ((Q * 2 ^ cs + bitsVal A) * 2 ^ k)
      (bitsVal B), Nat.add_mul_mod_self_right]
    exact Nat.mod_eq_of_lt hBlt

/-- The decoder's `(nextCode, codeSize)` update after an emitted code: the
numeric half of `lzwAdd`, as the reference encoder simulates it. -/
def nextSizeStep (next size : ℕ) : ℕ × ℕ :=
  if next < 4096 then
    (next + 1, if 2 ^ size ≤ next + 1 ∧ size < 12 then size + 1 else size)
  else (next, size)

/-- The reference encoder's state: its dictionary (the decoder's dictionary
plus the single entry the decoder has not yet added), the decoder's
simulated `nextCode` and `codeSize`, and whether a data code has been
emitted yet (the decoder adds entries only from the second data code on). -/
structure EncSt where
  dict : List (List ℕ)
  next : ℕ
  size : ℕ
  started : Bool

/-- Encoder-state update at a data-code emission. -/
def encEmit (st : EncSt) (newEntry : List ℕ) : EncSt :=
  { dict := if st.dict.length < 4096 then st.dict ++ [newEntry] else st.dict
    next := (if st.started then nextSizeStep st.next st.size
      else (st.next, st.size)).1
    size := (if st.started then nextSizeStep st.next st.size
      else (st.next, st.size)).2
    started := true }

/-- Greedy LZW: extend the match `w` while `w ++ [c]` is a dictionary entry;
otherwise emit `w`'s code at the decoder's current width, record `w ++ [c]`,
and restart from `[c]`.  At end of input, emit the final match and the
end-of-information code at the decoder's post-update width. -/
def encLoop (st : EncSt) (w : List ℕ) : List ℕ → List (ℕ × ℕ)
  | [] =>
      [(st.dict.indexOf w, st.size),
       (257, (if st.started then nextSizeStep st.next st.size
         else (st.next, st.size)).2)]
  | c :: rest =>
      if w ++ [c] ∈ st.dict then encLoop st (w ++ [c]) rest
      else
        (st.dict.indexOf w, st.size) ::
          encLoop (encEmit st (w ++ [c])) [c] rest

/-- The reference TIFF-variant LZW encoder at the code level: an initial
clear code at 9 bits, greedy LZW data codes, end-of-information. -/
def encodeLZW (input : List ℕ) : List (ℕ × ℕ) :=
  match input with
  | [] => [(256, 9), (257, 9)]
  | c :: rest => (256, 9) :: encLoop ⟨resetDict, 258, 9, false⟩ [c] rest

/-- MSB-first bit packing of the emitted codes. -/
def packBits (codes : List (ℕ × ℕ)) : List ℕ :=
  bytesOfBits (codes.flatMap fun p => codeBits p.1 p.2)

theorem lzwAdd_some (d : List (List ℕ)) (n s oc : ℕ) (e : List ℕ) :
    lzwAdd d n s (some oc) e =
      (if n < 4096 then dictSet d n (d.getD oc [] ++ [e.headD 0]) else d,
       nextSizeStep n s) := by
  rw [lzwAdd, nextSizeStep]
  split_ifs <;> rfl

theorem lzwAdd_none (d : List (List ℕ)) (n s : ℕ) (e : List ℕ) :
    lzwAdd d n s none e = (d, n, s) := rfl

theorem dictSet_append (d : List (List ℕ)) (e : List ℕ) :
    dictSet d d.length e = d ++ [e] := by
  rw [dictSet, if_neg (lt_irrefl _), Nat.sub_self, List.replicate_zero,
    List.append_nil]

theorem headD_append_of_ne_nil {w : List ℕ} (hw : w ≠ []) (c : ℕ) :
    (w ++ [c]).headD 0 = w.headD 0 := by
  rcases w with _ | ⟨x, t⟩
  · exact absurd rfl hw
  · rfl

theorem mem_resetDict_singleton {c : ℕ} (hc : c < 256) :
    [c] ∈ resetDict := by
  rw [resetDict, List.mem_append]
  left
  rw [initDict, List.mem_map]
  exact ⟨c, List.mem_range.2 hc, rfl⟩

theorem resetDict_prefix_getD_clear (t : List (List ℕ)) :
    (resetDict ++ t).getD 256 [] = [] ∧ (resetDict ++ t).getD 257 [] = [] := by
  constructor <;>
    (rw [List.getD_append _ _ _ _ (by rw [resetDict_length]; norm_num)]; rfl)

/-- Reading one code: when the remaining bit stream starts with the `cs`-bit
encoding of `code`, the guard of `lzwLoop` is enabled and the
refill-and-extract step yields exactly `code`, leaving the bit state
aligned on the rest of the stream. -/
theorem lzwRead (input : List ℕ) (endPos cs code : ℕ) (tl : List Bool)
    (bb bib bytePos n : ℕ)
    (hcs9 : 9 ≤ cs) (hcs12 : cs ≤ 12)
    (hbp : bytePos ≤ endPos)
    (hn : n + bib = 8 * bytePos)
    (hlow : bb % 2 ^ bib =
      bitsVal (((rangeBits input endPos).drop n).take bib))
    (hbb : bb < 4294967296) (hbib : bib ≤ 7)
    (hstream : (rangeBits input endPos).drop n = codeBits code cs ++ tl)
    (hcode : code < 2 ^ cs) :
    (bytePos < endPos ∨ cs ≤ bib) ∧
    ∃ bb' bib' bp',
      fillBits input endPos cs bb bib bytePos = (bb', bib', bp') ∧
      ¬ bib' < cs ∧
      bb' / 2 ^ (bib' - cs) % 2 ^ cs = code ∧
      bp' ≤ endPos ∧
      n + cs + (bib' - cs) = 8 * bp' ∧
      bb' % 2 ^ (bib' - cs) =
        bitsVal (((rangeBits input endPos).drop (n + cs)).take (bib' - cs)) ∧
      bb' < 4294967296 ∧ bib' - cs ≤ 7 ∧
      (rangeBits input endPos).drop (n + cs) = tl := by
  have hSlen : (rangeBits input endPos).length = 8 * endPos :=
    rangeBits_length input endPos
  have hdlen : ((rangeBits input endPos).drop n).length =
      8 * endPos - n := by
    rw [List.length_drop, hSlen]
  have hdlen' : 8 * endPos - n = cs + tl.length := by
    rw [← hdlen, hstream, List.length_append, codeBits_length]
  have hav : n + cs ≤ 8 * endPos := by omega
  have hguard : bytePos < endPos ∨ cs ≤ bib := by
    rcases Nat.lt_or_ge bytePos endPos with h | h
    · exact Or.inl h
    · right
      omega
  obtain ⟨h1, h2, h3, h4, h5, h6⟩ := fillBits_spec input endPos cs hcs9 hcs12
    bb bib bytePos n hbp hn hlow hbb (by omega) hav
  rcases hfe : fillBits input endPos cs bb bib bytePos with ⟨bb', bib', bp'⟩
  rw [hfe] at h1 h2 h3 h4 h5 h6
  simp only at h1 h2 h3 h4 h5 h6
  have hdroptl : (rangeBits input endPos).drop (n + cs) = tl := by
    have h := List.drop_left (codeBits code cs) tl
    rw [codeBits_length] at h
    rw [← List.drop_drop, hstream, h]
  have htake : ((rangeBits input endPos).drop n).take bib' =
      codeBits code cs ++
        ((rangeBits input endPos).drop (n + cs)).take (bib' - cs) := by
    have hsp : bib' = cs + (bib' - cs) := by omega
    have htl : ((rangeBits input endPos).drop n).take cs =
        codeBits code cs := by
      have h := List.take_left (codeBits code cs) tl
      rw [codeBits_length] at h
      rw [hstream, h]
    conv_lhs => rw [hsp]
    rw [List.take_add, htl, List.drop_drop]
  have hBlen : (((rangeBits input endPos).drop (n + cs)).take
      (bib' - cs)).length = bib' - cs := by
    rw [List.length_take, List.length_drop, hSlen]
    omega
  obtain ⟨hc1, hc2⟩ := extract_code bb' bib' cs h3 (codeBits code cs)
    (((rangeBits input endPos).drop (n + cs)).take (bib' - cs))
    (codeBits_length code cs) hBlen (by rw [h6, htake])
  exact ⟨hguard, bb', bib', bp', rfl, by omega,
    by rw [hc1, bitsVal_codeBits_of_lt hcode],
    h1, by omega, hc2, h5, by omega, hdroptl⟩

/-- The coupling invariant between the reference encoder's state and the
decoder's dictionary state `(d, old)` in the middle of a code stream: the
decoder's numeric state is `(st.next, st.size)`, its dictionary `d` is the
encoder's minus the one pending entry (built from the decoder's previous
string and the head of the current window `w`), except when the dictionary
is full or no data code has been emitted yet. -/
def EncInv (st : EncSt) (w : List ℕ) (d : List (List ℕ))
    (old : Option ℕ) : Prop :=
  9 ≤ st.size ∧ st.size ≤ 12 ∧ 258 ≤ st.next ∧ st.next ≤ 4096 ∧
  st.next ≤ 2 ^ st.size ∧ (st.size < 12 → st.next < 2 ^ st.size) ∧
  d.length = st.next ∧
  w ≠ [] ∧ w ∈ st.dict ∧ (∃ t, st.dict = resetDict ++ t) ∧
  ((st.started = false ∧ old = none ∧ st.dict = resetDict ∧ d = resetDict ∧
      st.next = 258 ∧ st.size = 9) ∨
   (st.started = true ∧ ∃ oc, old = some oc ∧ oc < d.length ∧
      d.getD oc [] ≠ [] ∧
      ((st.next < 4096 ∧ st.dict = d ++ [d.getD oc [] ++ [w.headD 0]]) ∨
       (st.next = 4096 ∧ st.dict = d))))

/-- The decoder's numeric update preserves the code-size and next-code
ranges. -/
theorem nextSizeStep_inv (n s : ℕ) (hs9 : 9 ≤ s) (hs12 : s ≤ 12)
    (hn258 : 258 ≤ n) (hn4096 : n ≤ 4096) (hnle : n ≤ 2 ^ s)
    (hnlt : s < 12 → n < 2 ^ s) :
    9 ≤ (nextSizeStep n s).2 ∧ (nextSizeStep n s).2 ≤ 12 ∧
    258 ≤ (nextSizeStep n s).1 ∧ (nextSizeStep n s).1 ≤ 4096 ∧
    (nextSizeStep n s).1 ≤ 2 ^ (nextSizeStep n s).2 ∧
    ((nextSizeStep n s).2 < 12 →
      (nextSizeStep n s).1 < 2 ^ (nextSizeStep n s).2) ∧
    (n < 4096 → (nextSizeStep n s).1 = n + 1) ∧
    (¬ n < 4096 → (nextSizeStep n s).1 = n ∧ (nextSizeStep n s).2 = s) := by
  rw [nextSizeStep]
  split_ifs with h1 h2
  · obtain ⟨hle, hlt⟩ := h2
    have hp : (2 : ℕ) ^ (s + 1) = 2 * 2 ^ s := by
      rw [pow_succ]
      ring
    have := hnlt hlt
    simp only
    refine ⟨by omega, by omega, by omega, by omega, by omega, fun _ => by
      omega, fun _ => trivial, fun h => absurd h1 h⟩
  · simp only
    have h12 : s = 12 ∨ s < 12 := by omega
    rcases h12 with h12 | h12
    · subst h12
      refine ⟨hs9, le_refl _, by omega, by omega, by norm_num; omega,
        by omega, fun _ => trivial, fun h => absurd h1 h⟩
    · have := hnlt h12
      have : n + 1 < 2 ^ s ∨ n + 1 = 2 ^ s := by omega
      rcases this with h | h
      · exact ⟨hs9, hs12, by omega, by omega, by omega, fun _ => by omega,
          fun _ => trivial, fun hh => absurd h1 hh⟩
      · exact absurd ⟨by omega, h12⟩ h2
  · exact ⟨hs9, hs12, by omega, by omega, hnle, hnlt, fun hh => absurd hh h1,
      fun _ => ⟨rfl, rfl⟩⟩

/-- The position found by `indexOf` for a member is in range and holds that
member. -/
theorem indexOf_spec : ∀ (l : List (List ℕ)) (w : List ℕ), w ∈ l →
    l.indexOf w < l.length ∧ l.getD (l.indexOf w) [] = w := by
  intro l
  induction l with
  | nil => exact fun w h => absurd h (List.not_mem_nil w)
  | cons x t ih =>
      intro w hmem
      by_cases hx : x = w
      · subst hx
        have hb : (x == x) = true := by simp
        rw [List.indexOf_cons, hb, cond_true]
        exact ⟨by simp, rfl⟩
      · have hmem' : w ∈ t := by
          rcases List.mem_cons.1 hmem with h | h
          · exact absurd h.symm hx
          · exact h
        have hb : (x == w) = false := by simp [hx]
        rw [List.indexOf_cons, hb, cond_false]
        obtain ⟨h1, h2⟩ := ih w hmem'
        exact ⟨by simp only [List.length_cons]; omega,
          by rw [List.getD_cons_succ]; exact h2⟩

/-- One unfolding of `lzwLoop` when the guard holds and the refill leaves
enough bits: the loop dispatches on the extracted code. -/
theorem lzwLoop_step (input : List ℕ) (endPos bb bib bytePos cs next : ℕ)
    (d : List (List ℕ)) (old : Option ℕ) (out : List ℕ) (hq : 0 < cs)
    (hg : bytePos < endPos ∨ cs ≤ bib)
    (bb2 bib2 bp2 code : ℕ)
    (hfe : fillBits input endPos cs bb bib bytePos = (bb2, bib2, bp2))
    (hge : ¬ bib2 < cs)
    (hcode : bb2 / 2 ^ (bib2 - cs) % 2 ^ cs = code) :
    lzwLoop input endPos bb bib bytePos cs next d old out hq =
      if code = 257 then out
      else if code = 256 then
        lzwLoop input endPos bb2 (bib2 - cs) bp2 9 258 resetDict none out
          (by norm_num)
      else
        match (if code < d.length then some (d.getD code [])
          else if code = next ∧ old ≠ none then
            some (d.getD (old.getD 0) [] ++
              [(d.getD (old.getD 0) []).headD 0])
          else none) with
        | none => out
        | some entry =>
            lzwLoop input endPos bb2 (bib2 - cs) bp2
              (lzwAdd d next cs old entry).2.2
              (lzwAdd d next cs old entry).2.1
              (lzwAdd d next cs old entry).1
              (some code) (out ++ entry)
              (lzwAdd_codeSize_pos d next cs old entry hq) := by
  rw [lzwLoop, dif_pos hg]
  split
  rename_i fb fbib fbp heq
  rw [hfe] at heq
  injection heq with h1 h23
  injection h23 with h2 h3
  subst h1
  subst h2
  subst h3
  rw [dif_neg hge]
  dsimp only
  rw [hcode]

/-- `lzwLoop` is determined by its non-proof arguments. -/
theorem lzwLoop_congr {input : List ℕ} {endPos bb bib bp cs1 cs2 n1 n2 : ℕ}
    {d1 d2 : List (List ℕ)} {o : Option ℕ} {out1 out2 : List ℕ}
    {hq1 : 0 < cs1} {hq2 : 0 < cs2}
    (h1 : cs1 = cs2) (h2 : n1 = n2) (h3 : d1 = d2) (h4 : out1 = out2) :
    lzwLoop input endPos bb bib bp cs1 n1 d1 o out1 hq1 =
      lzwLoop input endPos bb bib bp cs2 n2 d2 o out2 hq2 := by
  subst h1
  subst h2
  subst h3
  subst h4
  rfl

/-- One data-code step: under the coupling invariant, when the bit stream
continues with the `st.size`-bit code for the current window `w`, the
decoder consumes it, appends `w` to the output, catches its dictionary up
to the encoder's (`st.dict`), and moves its numeric state to the
encoder-simulated `(ns1, ns2)`. -/
theorem lzwStep (input : List ℕ) (endPos : ℕ) (st : EncSt) (w : List ℕ)
    (d : List (List ℕ)) (old : Option ℕ) (out : List ℕ)
    (bb bib bytePos n ns1 ns2 : ℕ) (hq : 0 < st.size) (tl : List Bool)
    (hinv : EncInv st w d old)
    (hns : (if st.started then nextSizeStep st.next st.size
      else (st.next, st.size)) = (ns1, ns2))
    (hbp : bytePos ≤ endPos) (hn : n + bib = 8 * bytePos)
    (hlow : bb % 2 ^ bib =
      bitsVal (((rangeBits input endPos).drop n).take bib))
    (hbb : bb < 4294967296) (hbib : bib ≤ 7)
    (hstream : (rangeBits input endPos).drop n =
      codeBits (st.dict.indexOf w) st.size ++ tl) :
    ∃ (bb2 bib2 bp2 : ℕ) (hq2 : 0 < ns2),
      lzwLoop input endPos bb bib bytePos st.size st.next d old out hq =
        lzwLoop input endPos bb2 bib2 bp2 ns2 ns1 st.dict
          (some (st.dict.indexOf w)) (out ++ w) hq2 ∧
      bp2 ≤ endPos ∧ n + st.size + bib2 = 8 * bp2 ∧
      bb2 % 2 ^ bib2 =
        bitsVal (((rangeBits input endPos).drop (n + st.size)).take bib2) ∧
      bb2 < 4294967296 ∧ bib2 ≤ 7 ∧
      (rangeBits input endPos).drop (n + st.size) = tl := by
  obtain ⟨hs9, hs12, hn258, hn4096, hnle, hnlt, hdlen, hwne, hwmem,
    ⟨t, hpre⟩, hbr⟩ := hinv
  obtain ⟨hklt, hkval⟩ := indexOf_spec st.dict w hwmem
  have hpow12 : (2 : ℕ) ^ st.size ≤ 4096 := by
    have h := Nat.pow_le_pow_right (show 1 ≤ 2 by norm_num) hs12
    norm_num at h
    exact h
  have hpow9 : 512 ≤ (2 : ℕ) ^ st.size := by
    have h := Nat.pow_le_pow_right (show 1 ≤ 2 by norm_num) hs9
    norm_num at h
    exact h
  have hdictlen : st.dict.length ≤ 2 ^ st.size := by
    rcases hbr with ⟨_, _, hdict, _, hnx, hsz⟩ |
      ⟨hst, oc, hoc, hoclt, hocne, hcase⟩
    · rw [hdict, resetDict_length]
      omega
    · rcases hcase with ⟨h4, hdictp⟩ | ⟨h4, hdictp⟩
      · rw [hdictp, List.length_append, List.length_cons, List.length_nil]
        rcases Nat.lt_or_ge st.size 12 with hs | hs
        · have := hnlt hs
          omega
        · have hsz12 : st.size = 12 := by omega
          have hp : (2 : ℕ) ^ st.size = 4096 := by
            rw [hsz12]
            norm_num
          omega
      · rw [hdictp]
        omega
  have hcode : st.dict.indexOf w < 2 ^ st.size :=
    lt_of_lt_of_le hklt hdictlen
  obtain ⟨hguard, fb, fbib, fbp, hfe, hge, hcval, hbp2, hn2, hlow2, hbb2,
    hbib2, htl⟩ := lzwRead input endPos st.size (st.dict.indexOf w) tl
    bb bib bytePos n hs9 hs12 hbp hn hlow hbb hbib hstream hcode
  obtain ⟨hg256, hg257⟩ := resetDict_prefix_getD_clear t
  have h256 : st.dict.indexOf w ≠ 256 := by
    intro h
    rw [h, hpre, hg256] at hkval
    exact hwne hkval.symm
  have h257 : st.dict.indexOf w ≠ 257 := by
    intro h
    rw [h, hpre, hg257] at hkval
    exact hwne hkval.symm
  have hadd : lzwAdd d st.next st.size old w = (st.dict, ns1, ns2) := by
    rcases hbr with ⟨hstf, holdn, hdict, hdeq, hnx, hsz⟩ |
      ⟨hst, oc, hoc, hoclt, hocne, hcase⟩
    · rw [holdn, lzwAdd_none]
      rw [hstf] at hns
      simp only [Bool.false_eq_true, if_false] at hns
      injection hns with e1 e2
      rw [hdeq, hdict, e1, e2]
    · have hns' : nextSizeStep st.next st.size = (ns1, ns2) := by
        rw [hst] at hns
        simpa using hns
      rw [hoc, lzwAdd_some, hns']
      rcases hcase with ⟨h4, hdictp⟩ | ⟨h4, hdictp⟩
      · rw [if_pos h4, show st.next = d.length from hdlen.symm,
          dictSet_append, hdictp]
      · rw [if_neg (by omega), hdictp]
  have hq2 : 0 < ns2 := by
    have h := lzwAdd_codeSize_pos d st.next st.size old w hq
    rw [hadd] at h
    exact h
  have hL := lzwLoop_step input endPos bb bib bytePos st.size st.next d old
    out hq hguard fb fbib fbp (st.dict.indexOf w) hfe hge hcval
  rw [if_neg h257, if_neg h256] at hL
  by_cases hkd : st.dict.indexOf w < d.length
  · have hdv : d.getD (st.dict.indexOf w) [] = w := by
      rcases hbr with ⟨_, _, hdict, hdeq, _, _⟩ |
        ⟨hst, oc, hoc, hoclt, hocne, hcase⟩
      · rw [hdeq, ← hdict]
        exact hkval
      · rcases hcase with ⟨h4, hdictp⟩ | ⟨h4, hdictp⟩
        · have hkval' : (d ++ [d.getD oc [] ++ [w.headD 0]]).getD
              (st.dict.indexOf w) [] = w := by
            rw [← hdictp]
            exact hkval
          rw [List.getD_append d _ [] _ hkd] at hkval'
          exact hkval'
        · rw [← hdictp]
          exact hkval
    rw [if_pos hkd, hdv] at hL
    dsimp only at hL
    refine ⟨fb, fbib - st.size, fbp, hq2, ?_, hbp2, hn2, hlow2, hbb2,
      hbib2, htl⟩
    rw [hL]
    exact lzwLoop_congr (by rw [hadd]) (by rw [hadd]) (by rw [hadd]) rfl
  · rcases hbr with ⟨_, _, hdict, hdeq, _, _⟩ |
      ⟨hst, oc, hoc, hoclt, hocne, hcase⟩
    · exfalso
      have hlen : st.dict.length = d.length := by
        rw [hdict, hdeq]
      omega
    · rcases hcase with ⟨h4, hdictp⟩ | ⟨h4, hdictp⟩
      · have hklen : st.dict.indexOf w = d.length := by
          have hsl : st.dict.length = d.length + 1 := by
            rw [hdictp, List.length_append, List.length_cons,
              List.length_nil]
          omega
        have hkn : st.dict.indexOf w = st.next := by omega
        have hwpend : w = d.getD oc [] ++ [w.headD 0] := by
          have hkval' : (d ++ [d.getD oc [] ++ [w.headD 0]]).getD
              d.length [] = w := by
            rw [← hklen, ← hdictp]
            exact hkval
          rw [List.getD_append_right d _ [] d.length (le_refl _),
            Nat.sub_self] at hkval'
          exact hkval'.symm
        have hhead : (d.getD oc []).headD 0 = w.headD 0 := by
          have h := headD_append_of_ne_nil hocne (w.headD 0)
          rw [← hwpend] at h
          exact h.symm
        rw [if_neg hkd,
          if_pos (⟨hkn, by rw [hoc]; exact fun hh => Option.noConfusion hh⟩ :
            st.dict.indexOf w = st.next ∧ ¬old = none), hoc] at hL
        simp only [Option.getD_some] at hL
        dsimp only at hL
        have hent : d.getD oc [] ++ [(d.getD oc []).headD 0] = w := by
          rw [hhead]
          exact hwpend.symm
        refine ⟨fb, fbib - st.size, fbp, hq2, ?_, hbp2, hn2, hlow2, hbb2,
          hbib2, htl⟩
        rw [hoc, hL]
        exact lzwLoop_congr (by rw [hent, ← hoc, hadd])
          (by rw [hent, ← hoc, hadd]) (by rw [hent, ← hoc, hadd])
          (by rw [hent])
      · exfalso
        have hlen : st.dict.length = d.length := by
          rw [hdictp]
        omega

/-- The encoder-simulated numeric state after an emission keeps the decoder
ranges, and matches the encoder dictionary's length. -/
theorem encInv_ns (st : EncSt) (w : List ℕ) (d : List (List ℕ))
    (old : Option ℕ) (ns1 ns2 : ℕ) (hinv : EncInv st w d old)
    (hns : (if st.started then nextSizeStep st.next st.size
      else (st.next, st.size)) = (ns1, ns2)) :
    9 ≤ ns2 ∧ ns2 ≤ 12 ∧ 258 ≤ ns1 ∧ ns1 ≤ 4096 ∧ ns1 ≤ 2 ^ ns2 ∧
    (ns2 < 12 → ns1 < 2 ^ ns2) ∧ st.dict.length = ns1 := by
  obtain ⟨hs9, hs12, hn258, hn4096, hnle, hnlt, hdlen, hwne, hwmem,
    ⟨t, hpre⟩, hbr⟩ := hinv
  rcases hbr with ⟨hstf, holdn, hdict, hdeq, hnx, hsz⟩ |
    ⟨hst, oc, hoc, hoclt, hocne, hcase⟩
  · rw [hstf] at hns
    simp only [Bool.false_eq_true, if_false] at hns
    injection hns with e1 e2
    subst e1
    subst e2
    exact ⟨hs9, hs12, hn258, hn4096, hnle, hnlt,
      by rw [hdict, resetDict_length, hnx]⟩
  · rw [hst] at hns
    have hns' : nextSizeStep st.next st.size = (ns1, ns2) := by
      simpa using hns
    have h := nextSizeStep_inv st.next st.size hs9 hs12 hn258 hn4096 hnle
      hnlt
    rw [hns'] at h
    simp only at h
    obtain ⟨a1, a2, a3, a4, a5, a6, a7, a8⟩ := h
    refine ⟨a1, a2, a3, a4, a5, a6, ?_⟩
    rcases hcase with ⟨h4, hdictp⟩ | ⟨h4, hdictp⟩
    · rw [hdictp, List.length_append, List.length_cons, List.length_nil]
      have := a7 h4
      omega
    · rw [hdictp]
      obtain ⟨e1, _⟩ := a8 (by omega)
      omega

/-- Main simulation: with the coupling invariant holding and the remaining
bit stream carrying exactly the encoder's remaining codes (plus final byte
padding), the decoder loop emits the current window followed by the rest of
the input. -/
theorem encLoop_decode (input : List ℕ) (endPos : ℕ) :
    ∀ (rest : List ℕ) (st : EncSt) (w : List ℕ) (d : List (List ℕ))
      (old : Option ℕ) (out : List ℕ) (bb bib bytePos n padLen : ℕ)
      (hq : 0 < st.size),
      EncInv st w d old →
      (∀ b ∈ rest, b < 256) →
      bytePos ≤ endPos →
      n + bib = 8 * bytePos →
      bb % 2 ^ bib = bitsVal (((rangeBits input endPos).drop n).take bib) →
      bb < 4294967296 → bib ≤ 7 → padLen ≤ 7 →
      (rangeBits input endPos).drop n =
        (encLoop st w rest).flatMap (fun p => codeBits p.1 p.2) ++
          List.replicate padLen false →
      lzwLoop input endPos bb bib bytePos st.size st.next d old out hq =
        out ++ w ++ rest := by
  intro rest
  induction rest with
  | nil =>
      intro st w d old out bb bib bytePos n padLen hq hinv hby hbp hn hlow
        hbb hbib hpad hstream
      rcases hnse : (if st.started then nextSizeStep st.next st.size
        else (st.next, st.size)) with ⟨ns1, ns2⟩
      simp only [encLoop] at hstream
      rw [hnse] at hstream
      simp only [List.flatMap_cons, List.flatMap_nil, List.append_nil,
        List.append_assoc] at hstream
      obtain ⟨bb2, bib2, bp2, hq2, hL, hbp2, hn2, hlow2, hbb2x, hbib2,
        htl⟩ := lzwStep input endPos st w d old out bb bib bytePos n ns1
        ns2 hq _ hinv hnse hbp hn hlow hbb hbib hstream
      obtain ⟨h9, h12, _, _, _, _, _⟩ := encInv_ns st w d old ns1 ns2 hinv
        hnse
      have hcode257 : 257 < 2 ^ ns2 := by
        have hp : 512 ≤ 2 ^ ns2 := by
          have h := Nat.pow_le_pow_right (show 1 ≤ 2 by norm_num) h9
          norm_num at h
          exact h
        omega
      obtain ⟨hguard2, gb, gbib, gbp, hgfe, hgge, hgval, _, _, _, _, _,
        _⟩ := lzwRead input endPos ns2 257 (List.replicate padLen false)
        bb2 bib2 bp2 (n + st.size) h9 h12 hbp2 hn2 hlow2 hbb2x hbib2 htl
        hcode257
      have hL2 := lzwLoop_step input endPos bb2 bib2 bp2 ns2 ns1 st.dict
        (some (st.dict.indexOf w)) (out ++ w) hq2 hguard2 gb gbib gbp 257
        hgfe hgge hgval
      rw [if_pos rfl] at hL2
      rw [hL, hL2, List.append_nil]
  | cons c rest ih =>
      intro st w d old out bb bib bytePos n padLen hq hinv hby hbp hn hlow
        hbb hbib hpad hstream
      by_cases hmem : w ++ [c] ∈ st.dict
      · simp only [encLoop] at hstream
        rw [if_pos hmem] at hstream
        have hinv' : EncInv st (w ++ [c]) d old := by
          obtain ⟨hs9, hs12, hn258, hn4096, hnle, hnlt, hdlen, hwne, _,
            hpre, hbr⟩ := hinv
          refine ⟨hs9, hs12, hn258, hn4096, hnle, hnlt, hdlen, by simp,
            hmem, hpre, ?_⟩
          rcases hbr with h | ⟨hst, oc, hoc, h1, h2, hcase⟩
          · exact Or.inl h
          · refine Or.inr ⟨hst, oc, hoc, h1, h2, ?_⟩
            rcases hcase with ⟨h4, hdictp⟩ | h
            · left
              refine ⟨h4, ?_⟩
              rw [headD_append_of_ne_nil hwne c]
              exact hdictp
            · exact Or.inr h
        rw [ih st (w ++ [c]) d old out bb bib bytePos n padLen hq hinv'
          (fun b hb => hby b (List.mem_cons_of_mem c hb)) hbp hn hlow hbb
          hbib hpad hstream]
        simp
      · simp only [encLoop] at hstream
        rw [if_neg hmem] at hstream
        simp only [List.flatMap_cons, List.append_assoc] at hstream
        rcases hnse : (if st.started then nextSizeStep st.next st.size
          else (st.next, st.size)) with ⟨ns1, ns2⟩
        obtain ⟨bb2, bib2, bp2, hq2, hL, hbp2, hn2, hlow2, hbb2x, hbib2,
          htl⟩ := lzwStep input endPos st w d old out bb bib bytePos n ns1
          ns2 hq _ hinv hnse hbp hn hlow hbb hbib hstream
        obtain ⟨h9, h12, h258, h4096, hle2, hlt2, hlen⟩ := encInv_ns st w
          d old ns1 ns2 hinv hnse
        have hc : c < 256 := hby c (List.mem_cons_self c rest)
        obtain ⟨hs9, hs12, hn258, hn4096, hnle, hnlt, hdlen, hwne, hwmem,
          ⟨t, hpre⟩, hbr⟩ := hinv
        obtain ⟨hklt, hkval⟩ := indexOf_spec st.dict w hwmem
        have hsize : (encEmit st (w ++ [c])).size = ns2 := by
          rw [encEmit]
          dsimp only
          rw [hnse]
        have hnext : (encEmit st (w ++ [c])).next = ns1 := by
          rw [encEmit]
          dsimp only
          rw [hnse]
        have hdict' : (encEmit st (w ++ [c])).dict =
            if st.dict.length < 4096 then st.dict ++ [w ++ [c]]
            else st.dict := rfl
        have hinv' : EncInv (encEmit st (w ++ [c])) [c] st.dict
            (some (st.dict.indexOf w)) := by
          unfold EncInv
          rw [hsize, hnext, hdict']
          refine ⟨h9, h12, h258, h4096, hle2, hlt2, hlen, by simp, ?_,
            ?_, ?_⟩
          · split_ifs with h44
            · exact List.mem_append.2 (Or.inl
                (by rw [hpre]; exact List.mem_append.2 (Or.inl
                  (mem_resetDict_singleton hc))))
            · rw [hpre]
              exact List.mem_append.2 (Or.inl (mem_resetDict_singleton hc))
          · split_ifs with h44
            · exact ⟨t ++ [w ++ [c]], by rw [hpre, List.append_assoc]⟩
            · exact ⟨t, hpre⟩
          · refine Or.inr ⟨rfl, st.dict.indexOf w, rfl, hklt,
              by rw [hkval]; exact hwne, ?_⟩
            by_cases h44 : ns1 < 4096
            · left
              refine ⟨h44, ?_⟩
              rw [if_pos (by omega), hkval]
              rfl
            · right
              refine ⟨by omega, ?_⟩
              rw [if_neg (by omega)]
        have hq3 : 0 < (encEmit st (w ++ [c])).size := by
          rw [hsize]
          exact hq2
        have hres := ih (encEmit st (w ++ [c])) [c] st.dict
          (some (st.dict.indexOf w)) (out ++ w) bb2 bib2 bp2
          (n + st.size) padLen hq3 hinv'
          (fun b hb => hby b (List.mem_cons_of_mem c hb)) hbp2 hn2 hlow2
          hbb2x hbib2 hpad htl
        rw [hL, lzwLoop_congr hsize.symm hnext.symm rfl rfl, hres]
        simp

/-- **C3.** Round-trip: for every byte sequence, encoding it with the
reference TIFF-variant LZW encoder (`encodeLZW` emitting an initial clear
code, greedy dictionary codes and the end-of-information code under the
decoder's own code-size growth rule, packed MSB-first by `packBits`) and
then decoding with `decompressLZW` reproduces the original byte sequence
exactly. -/
theorem c3_lzw_roundtrip (input : List ℕ) (hbytes : ∀ b ∈ input, b < 256) :
    decompressLZW (packBits (encodeLZW input)) 0
      (packBits (encodeLZW input)).length = input := by
  have hbits : ∃ pad, pad ≤ 7 ∧
      rangeBits (packBits (encodeLZW input))
        (packBits (encodeLZW input)).length =
      ((encodeLZW input).flatMap fun p => codeBits p.1 p.2) ++
        List.replicate pad false := by
    refine ⟨(8 - ((encodeLZW input).flatMap fun p =>
      codeBits p.1 p.2).length % 8) % 8, by omega, ?_⟩
    rw [packBits, rangeBits_eq_flatMap, bytesOfBits_bits]
  obtain ⟨pad, hpad, hBS⟩ := hbits
  rcases input with _ | ⟨c, rest⟩
  · simp only [encodeLZW, List.flatMap_cons, List.flatMap_nil,
      List.append_nil, List.append_assoc] at hBS
    simp only [encodeLZW]
    rw [decompressLZW, Nat.zero_add]
    obtain ⟨hguard, fb, fbib, fbp, hfe, hge, hcval, hbp2, hn2, hlow2,
      hbb2, hbib2, htl⟩ := lzwRead (packBits [(256, 9), (257, 9)])
      (packBits [(256, 9), (257, 9)]).length 9 256
      (codeBits 257 9 ++ List.replicate pad false) 0 0 0 0
      (by norm_num) (by norm_num) (Nat.zero_le _) (by norm_num)
      (by norm_num [bitsVal]) (by norm_num) (by norm_num)
      (by rw [List.drop_zero]; exact hBS) (by norm_num)
    have hL := lzwLoop_step (packBits [(256, 9), (257, 9)])
      (packBits [(256, 9), (257, 9)]).length 0 0 0 9 258 initDict none []
      (by norm_num) hguard fb fbib fbp 256 hfe hge hcval
    rw [if_neg (by norm_num), if_pos rfl] at hL
    obtain ⟨hguard2, gb, gbib, gbp, hgfe, hgge, hgval, _, _, _, _, _,
      _⟩ := lzwRead (packBits [(256, 9), (257, 9)])
      (packBits [(256, 9), (257, 9)]).length 9 257
      (List.replicate pad false) fb (fbib - 9) fbp (0 + 9)
      (by norm_num) (by norm_num) hbp2 hn2 hlow2 hbb2 hbib2 htl
      (by norm_num)
    have hL2 := lzwLoop_step (packBits [(256, 9), (257, 9)])
      (packBits [(256, 9), (257, 9)]).length fb (fbib - 9) fbp 9 258
      resetDict none [] (by norm_num) hguard2 gb gbib gbp 257 hgfe hgge
      hgval
    rw [if_pos rfl] at hL2
    exact hL.trans hL2
  · simp only [encodeLZW, List.flatMap_cons, List.append_assoc] at hBS
    simp only [encodeLZW]
    rw [decompressLZW, Nat.zero_add]
    have hc : c < 256 := hbytes c (List.mem_cons_self c rest)
    obtain ⟨hguard, fb, fbib, fbp, hfe, hge, hcval, hbp2, hn2, hlow2,
      hbb2, hbib2, htl⟩ := lzwRead
      (packBits ((256, 9) :: encLoop ⟨resetDict, 258, 9, false⟩ [c] rest))
      (packBits ((256, 9) ::
        encLoop ⟨resetDict, 258, 9, false⟩ [c] rest)).length 9 256
      ((encLoop ⟨resetDict, 258, 9, false⟩ [c] rest).flatMap
        (fun p => codeBits p.1 p.2) ++ List.replicate pad false) 0 0 0 0
      (by norm_num) (by norm_num) (Nat.zero_le _) (by norm_num)
      (by norm_num [bitsVal]) (by norm_num) (by norm_num)
      (by rw [List.drop_zero]; exact hBS) (by norm_num)
    have hL := lzwLoop_step
      (packBits ((256, 9) :: encLoop ⟨resetDict, 258, 9, false⟩ [c] rest))
      (packBits ((256, 9) ::
        encLoop ⟨resetDict, 258, 9, false⟩ [c] rest)).length 0 0 0 9 258
      initDict none [] (by norm_num) hguard fb fbib fbp 256 hfe hge hcval
    rw [if_neg (by norm_num), if_pos rfl] at hL
    have hinv0 : EncInv ⟨resetDict, 258, 9, false⟩ [c] resetDict none := by
      unfold EncInv
      dsimp only
      exact ⟨by norm_num, by norm_num, by norm_num, by norm_num,
        by norm_num, fun _ => by norm_num, resetDict_length, by simp,
        mem_resetDict_singleton hc, ⟨[], (List.append_nil _).symm⟩,
        Or.inl ⟨rfl, rfl, rfl, rfl, rfl, rfl⟩⟩
    have hdec := encLoop_decode
      (packBits ((256, 9) :: encLoop ⟨resetDict, 258, 9, false⟩ [c] rest))
      (packBits ((256, 9) ::
        encLoop ⟨resetDict, 258, 9, false⟩ [c] rest)).length rest
      ⟨resetDict, 258, 9, false⟩ [c] resetDict none [] fb (fbib - 9) fbp
      (0 + 9) pad (by norm_num) hinv0
      (fun b hb => hbytes b (List.mem_cons_of_mem c hb)) hbp2 hn2 hlow2
      hbb2 hbib2 hpad htl
    exact hL.trans (hdec.trans rfl)

/-- Witness for C3 at a concrete byte sequence that exercises both a
fresh-byte code and a grown-dictionary code. -/
theorem c3_lzw_roundtrip_witness :
    (∀ b ∈ [65, 66, 65, 65, 66, 65], b < 256) ∧
    decompressLZW (packBits (encodeLZW [65, 66, 65, 65, 66, 65])) 0
      (packBits (encodeLZW [65, 66, 65, 65, 66, 65])).length =
      [65, 66, 65, 65, 66, 65] :=
  ⟨by decide, c3_lzw_roundtrip [65, 66, 65, 65, 66, 65] (by decide)⟩
